/-
Verification of the corpus-packer core: path filtering, glob matching,
content compression, the streaming run model and the output encoding chain.

The Go sources are shallowly embedded: Go strings are modelled as lists of
unicode scalars (`Str`), the Go standard-library helpers used by the core
(`filepath.Clean`, `filepath.Ext`, `filepath.Base`, `strings.Fields`,
`strings.Join`, `strings.ReplaceAll`, `strings.TrimSpace`, `regexp`) are
modelled below, and the processor (`processPath` / `processFile` /
`writeSummary` / `ProcessDirectory`) is modelled as a state machine over the
sequence of filesystem-walk callbacks.
-/
import Mathlib

set_option maxHeartbeats 1000000

namespace CorpusPacker

/-- Go strings, modelled as lists of unicode scalar values. -/
abbrev Str := List Char

/-- Byte-wise whitespace set of Go `unicode.IsSpace` (White_Space property). -/
def goIsSpace (c : Char) : Bool :=
  c = ' ' || c = '\t' || c = '\n' || c = '\x0b' || c = '\x0c' || c = '\r' ||
  c.toNat = 0x85 || c.toNat = 0xA0 || c.toNat = 0x1680 ||
  (0x2000 ≤ c.toNat && c.toNat ≤ 0x200A) ||
  c.toNat = 0x2028 || c.toNat = 0x2029 || c.toNat = 0x202F ||
  c.toNat = 0x205F || c.toNat = 0x3000

/-- ASCII lower-casing of a single character (the case mapping relevant to
file-name extensions, which are ASCII in this domain). -/
def lowerChar (c : Char) : Char :=
  if 'A' ≤ c ∧ c ≤ 'Z' then Char.ofNat (c.toNat + 32) else c

/-- Models `strings.ToLower` on extension strings (ASCII case mapping). -/
def asciiToLower (s : Str) : Str := s.map lowerChar

theorem dropWhile_length_le (p : Char → Bool) (l : Str) :
    (l.dropWhile p).length ≤ l.length := by
  induction l with
  | nil => simp
  | cons c t ih =>
    simp only [List.dropWhile]
    split
    · exact Nat.le_succ_of_le ih
    · simp

/-- Fuel-driven worker for `fields`; every step consumes at least one
character, so fuel equal to the length is exact. -/
def fieldsF : Nat → Str → List Str
  | 0, _ => []
  | _ + 1, [] => []
  | f + 1, c :: t =>
    if goIsSpace c then fieldsF f t
    else (c :: t.takeWhile (fun x => !goIsSpace x)) ::
      fieldsF f (t.dropWhile (fun x => !goIsSpace x))

/-- Models `strings.Fields`: split around runs of whitespace. -/
def fields (s : Str) : List Str := fieldsF s.length s

/-- Models `strings.Join`: interleave the separator between the pieces. -/
def joinSep : List Str → Str → Str
  | [], _ => []
  | [x], _ => x
  | x :: y :: t, sep => x ++ sep ++ joinSep (y :: t) sep

/-- Fuel-driven worker for `replaceAll` (nonempty pattern); every step
consumes at least one character of the subject. -/
def replaceAllF (old new : Str) : Nat → Str → Str
  | 0, s => s
  | f + 1, s =>
    match s with
    | [] => []
    | c :: t =>
      if old.isPrefixOf (c :: t) then
        new ++ replaceAllF old new f (t.drop (old.length - 1))
      else c :: replaceAllF old new f t

/-- Models `strings.ReplaceAll s old new`: left-to-right, non-overlapping
replacement, scanning resumes after each replaced occurrence. -/
def replaceAll (s old new : Str) : Str :=
  if old = [] then s else replaceAllF old new s.length s

/-- Models `strings.TrimLeft` over the whitespace set. -/
def trimLeft : Str → Str
  | [] => []
  | c :: t => if goIsSpace c then trimLeft t else c :: t

/-- Models `strings.TrimSpace`: drop whitespace from both ends. -/
def trimSpace (s : Str) : Str :=
  ((trimLeft ((trimLeft s.reverse)).reverse))

/-- Models `strings.Contains`: substring test by scanning. -/
def containsSub (s sub : Str) : Bool :=
  if sub.isPrefixOf s then true
  else
    match s with
    | [] => false
    | _ :: t => containsSub t sub

/-- Split a path on `'/'` separators. -/
def splitSlash : Str → List Str
  | [] => [[]]
  | c :: t =>
    if c = '/' then [] :: splitSlash t
    else
      match splitSlash t with
      | [] => [[c]]
      | e :: rest => (c :: e) :: rest

/-- Join path elements with `'/'`. -/
def joinSlash (l : List Str) : Str := joinSep l ['/']

/-- One step of the `filepath.Clean` element stack: `".."` pops a
non-`".."` top, is dropped at the root of a rooted path, and accumulates
otherwise; every other element is pushed. -/
def cleanPush (rooted : Bool) (st : List Str) (e : Str) : List Str :=
  if e = ['.', '.'] then
    match st.getLast? with
    | some l => if l = ['.', '.'] then st ++ [e] else st.dropLast
    | none => if rooted then [] else [e]
  else st ++ [e]

/-- Models `filepath.Clean` (unix rules): collapse separators, drop `"."`
elements, resolve `".."` against preceding elements. -/
def pathClean (p : Str) : Str :=
  if p = [] then ['.']
  else
    let rooted := p.head? = some '/'
    let elems := (splitSlash p).filter (fun e => e ≠ [] ∧ e ≠ ['.'])
    let st := elems.foldl (cleanPush rooted) []
    let out := (if rooted then ['/'] else []) ++ joinSlash st
    if out = [] then ['.'] else out

/-- Reverse-scan worker for `filepath.Ext`: `acc` holds the characters seen
so far in original order. -/
def extAux : Str → Str → Str
  | [], _ => []
  | c :: t, acc =>
    if c = '/' then []
    else if c = '.' then '.' :: acc
    else extAux t (c :: acc)

/-- Models `filepath.Ext`: the suffix starting at the final dot of the final
slash-separated element, empty when there is none. -/
def pathExt (p : Str) : Str := extAux p.reverse []

/-- Models `filepath.Base`: the final element of the path. -/
def pathBase (p : Str) : Str :=
  if p = [] then ['.']
  else
    let q := (p.reverse.dropWhile (fun c => c = '/')).reverse
    if q = [] then ['/']
    else (q.reverse.takeWhile (fun c => c ≠ '/')).reverse

/-- Regular expressions over characters, with character-predicate atoms:
the dialect produced by the glob-to-regex translation (`regexp` subset). -/
inductive Rx where
  | fail : Rx
  | eps : Rx
  | cls : (Char → Bool) → Rx
  | seq : Rx → Rx → Rx
  | alt : Rx → Rx → Rx
  | star : Rx → Rx

/-- Language of a regular expression. A star match is a flattening of
nonempty pieces, each in the language of the body. -/
def RxLang : Rx → Str → Prop
  | .fail, _ => False
  | .eps, s => s = []
  | .cls f, s => ∃ c, s = [c] ∧ f c = true
  | .seq a b, s => ∃ u v, s = u ++ v ∧ RxLang a u ∧ RxLang b v
  | .alt a b, s => RxLang a s ∨ RxLang b s
  | .star a, s => ∃ L : List Str, (∀ u ∈ L, RxLang a u ∧ u ≠ []) ∧ s = L.flatten

/-- Whether the expression accepts the empty string. -/
def Rx.nullable : Rx → Bool
  | .fail => false
  | .eps => true
  | .cls _ => false
  | .seq a b => a.nullable && b.nullable
  | .alt a b => a.nullable || b.nullable
  | .star _ => true

/-- Brzozowski derivative. -/
def Rx.deriv : Rx → Char → Rx
  | .fail, _ => .fail
  | .eps, _ => .fail
  | .cls f, c => if f c then .eps else .fail
  | .seq a b, c =>
    if a.nullable then .alt (.seq (a.deriv c) b) (b.deriv c)
    else .seq (a.deriv c) b
  | .alt a b, c => .alt (a.deriv c) (b.deriv c)
  | .star a, c => .seq (a.deriv c) (.star a)

/-- Anchored (whole-string) matching by iterated derivatives. -/
def rmatch : Rx → Str → Bool
  | r, [] => r.nullable
  | r, c :: s => rmatch (r.deriv c) s

theorem nullable_iff (r : Rx) : r.nullable = true ↔ RxLang r [] := by
  induction r with
  | fail => simp [Rx.nullable, RxLang]
  | eps => simp [Rx.nullable, RxLang]
  | cls f => simp [Rx.nullable, RxLang]
  | seq a b iha ihb =>
    simp only [Rx.nullable, Bool.and_eq_true, RxLang, iha, ihb]
    constructor
    · rintro ⟨ha, hb⟩; exact ⟨[], [], rfl, ha, hb⟩
    · rintro ⟨u, v, huv, hu, hv⟩
      rcases List.append_eq_nil.mp huv.symm with ⟨hu0, hv0⟩
      exact ⟨hu0 ▸ hu, hv0 ▸ hv⟩
  | alt a b iha ihb =>
    simp [Rx.nullable, RxLang, iha, ihb]
  | star a ih =>
    simp only [Rx.nullable, RxLang, true_iff]
    exact ⟨[], by simp, rfl⟩

theorem deriv_iff (r : Rx) (c : Char) :
    ∀ s, RxLang (r.deriv c) s ↔ RxLang r (c :: s) := by
  induction r with
  | fail => intro s; simp [Rx.deriv, RxLang]
  | eps => intro s; simp [Rx.deriv, RxLang]
  | cls f =>
    intro s
    by_cases h : f c = true
    · simp only [Rx.deriv, h, if_true, RxLang]
      constructor
      · rintro rfl; exact ⟨c, rfl, h⟩
      · rintro ⟨d, hd, hfd⟩
        cases hd; rfl
    · simp only [Rx.deriv, h, if_false, RxLang, false_iff]
      rintro ⟨d, hd, hfd⟩
      cases hd
      exact h hfd
  | seq a b iha ihb =>
    intro s
    by_cases hn : a.nullable = true
    · simp only [Rx.deriv, hn, if_true, RxLang]
      constructor
      · rintro (⟨u, v, rfl, hu, hv⟩ | hb)
        · exact ⟨c :: u, v, rfl, (iha u).mp hu, hv⟩
        · exact ⟨[], c :: s, rfl, (nullable_iff a).mp hn, (ihb s).mp hb⟩
      · rintro ⟨u, v, huv, hu, hv⟩
        cases u with
        | nil =>
          right
          simp only [List.nil_append] at huv
          exact (ihb s).mpr (huv ▸ hv)
        | cons x u' =>
          left
          simp only [List.cons_append, List.cons.injEq] at huv
          obtain ⟨rfl, rfl⟩ := huv
          exact ⟨u', v, rfl, (iha u').mpr hu, hv⟩
    · simp only [Rx.deriv, hn, if_false, RxLang]
      constructor
      · rintro ⟨u, v, rfl, hu, hv⟩
        exact ⟨c :: u, v, rfl, (iha u).mp hu, hv⟩
      · rintro ⟨u, v, huv, hu, hv⟩
        cases u with
        | nil =>
          exact absurd ((nullable_iff a).mpr hu) (by simpa using hn)
        | cons x u' =>
          simp only [List.cons_append, List.cons.injEq] at huv
          obtain ⟨rfl, rfl⟩ := huv
          exact ⟨u', v, rfl, (iha u').mpr hu, hv⟩
  | alt a b iha ihb =>
    intro s
    simp [Rx.deriv, RxLang, iha, ihb]
  | star a ih =>
    intro s
    simp only [Rx.deriv, RxLang]
    constructor
    · rintro ⟨u, v, rfl, hu, L, hL, rfl⟩
      refine ⟨(c :: u) :: L, ?_, by simp⟩
      intro w hw
      rcases List.mem_cons.mp hw with rfl | hw'
      · exact ⟨(ih u).mp hu, by simp⟩
      · exact hL w hw'
    · rintro ⟨L, hL, hflat⟩
      cases L with
      | nil => simp at hflat
      | cons w L' =>
        rcases hL w (by simp) with ⟨hw, hwne⟩
        cases w with
        | nil => exact absurd rfl hwne
        | cons x w' =>
          simp only [List.flatten_cons, List.cons_append, List.cons.injEq] at hflat
          obtain ⟨rfl, rfl⟩ := hflat
          refine ⟨w', L'.flatten, rfl, (ih w').mpr hw, L', ?_, rfl⟩
          intro u hu; exact hL u (by simp [hu])

theorem rmatch_iff (r : Rx) (s : Str) : rmatch r s = true ↔ RxLang r s := by
  induction s generalizing r with
  | nil => simpa [rmatch] using nullable_iff r
  | cons c t ih =>
    simpa [rmatch] using (ih (r.deriv c)).trans (deriv_iff r c t)

/-- The metacharacters escaped by Go `regexp.QuoteMeta`. -/
def rxSpecials : List Char :=
  ['\\', '.', '+', '*', '?', '(', ')', '|', '[', ']', '\x7b', '\x7d', '^', '$']

/-- Models `regexp.QuoteMeta`: backslash-escape every metacharacter. -/
def quoteMeta : Str → Str
  | [] => []
  | c :: t => if c ∈ rxSpecials then '\\' :: c :: quoteMeta t else c :: quoteMeta t

/-- Characters allowed verbatim inside a `[...]` character class by the
parser (the translation only ever emits the class `[^/]`). -/
def classChar (x : Char) : Bool :=
  !(x = ']') && !(x = '\\') && !(x = '-') && !(x = '[') && !(x = '^')

/-- Parse the body of a character class, after the opening bracket. -/
def parseClassBody (t : Str) : Option (Rx × Str) :=
  match t with
  | '^' :: t2 =>
    let body := t2.takeWhile classChar
    if body = [] then none
    else
      match t2.dropWhile classChar with
      | ']' :: t3 => some (.cls (fun x => !(body.contains x)), t3)
      | _ => none
  | _ =>
    let body := t.takeWhile classChar
    if body = [] then none
    else
      match t.dropWhile classChar with
      | ']' :: t3 => some (.cls (fun x => body.contains x), t3)
      | _ => none

/-- Apply a postfix repetition operator to a parsed atom. -/
def applyRep (r : Rx) (t : Str) : Option (Rx × Str) :=
  match t with
  | [] => some (r, [])
  | c :: t2 =>
    if c = '*' then some (.star r, t2)
    else if c = '?' then some (.alt r .eps, t2)
    else if c = '+' then none
    else if c = '\x7b' then none
    else some (r, c :: t2)

/-- Right-nested sequencing of a list of atoms. -/
def seqList (l : List Rx) : Rx := l.foldr Rx.seq Rx.eps

/-- Recursive-descent parser for the regex dialect emitted by the glob
translation: escaped literals, plain literals, `.`, character classes,
non-capturing groups, and the `*` / `?` repetitions. Fuel bounds the
recursion; it parses up to an unmatched `)` or the end of input. -/
def parseSeqFuel : Nat → Str → Option (List Rx × Str)
  | 0, _ => none
  | _ + 1, [] => some ([], [])
  | f + 1, c :: t =>
    if c = ')' then some ([], c :: t)
    else if c = '\\' then
      match t with
      | d :: t2 =>
        if d ∈ rxSpecials then
          match applyRep (Rx.cls (fun x => x = d)) t2 with
          | some (r, t3) =>
            match parseSeqFuel f t3 with
            | some (atoms, rest) => some (r :: atoms, rest)
            | none => none
          | none => none
        else none
      | [] => none
    else if c = '.' then
      match applyRep (Rx.cls (fun x => !(x = '\n'))) t with
      | some (r, t3) =>
        match parseSeqFuel f t3 with
        | some (atoms, rest) => some (r :: atoms, rest)
        | none => none
      | none => none
    else if c = '[' then
      match parseClassBody t with
      | some (cl, t2) =>
        match applyRep cl t2 with
        | some (r, t3) =>
          match parseSeqFuel f t3 with
          | some (atoms, rest) => some (r :: atoms, rest)
          | none => none
        | none => none
      | none => none
    else if c = '(' then
      match t with
      | '?' :: ':' :: t2 =>
        match parseSeqFuel f t2 with
        | some (inner, ')' :: t3) =>
          match applyRep (seqList inner) t3 with
          | some (r, t4) =>
            match parseSeqFuel f t4 with
            | some (atoms, rest) => some (r :: atoms, rest)
            | none => none
          | none => none
        | _ => none
      | _ => none
    else if c ∈ rxSpecials then none
    else
      match applyRep (Rx.cls (fun x => x = c)) t with
      | some (r, t3) =>
        match parseSeqFuel f t3 with
        | some (atoms, rest) => some (r :: atoms, rest)
        | none => none
      | none => none

/-- Models `regexp.Compile` on the anchored pattern `^core$` built by the
glob translation: strip the anchors and parse the core; a full-string match
of the core is then exactly a match of the anchored pattern. -/
def parseAnchored (s : Str) : Option Rx :=
  match s with
  | '^' :: t =>
    match t.getLast? with
    | some '$' =>
      match parseSeqFuel (t.length + 1) t.dropLast with
      | some (atoms, []) => some (seqList atoms)
      | _ => none
    | _ => none
  | _ => none

/-- Models `matchGlobPattern` (part_004): normalize pattern and path
(`filepath.Clean`, lower-cased extensions when both have one), translate the
glob to an anchored regex via `QuoteMeta` and the five `ReplaceAll`
substitutions, compile it, and run it on the normalized path. -/
def matchGlobPattern (pattern path : Str) : Except Str Bool :=
  let pattern := pathClean pattern
  let path := pathClean path
  let patternExt := pathExt pattern
  let pathExtn := pathExt path
  let pattern2 :=
    if patternExt ≠ [] ∧ pathExtn ≠ [] then
      pattern.take (pattern.length - patternExt.length) ++ asciiToLower patternExt
    else pattern
  let path2 :=
    if patternExt ≠ [] ∧ pathExtn ≠ [] then
      path.take (path.length - pathExtn.length) ++ asciiToLower pathExtn
    else path
  let rp := quoteMeta pattern2
  let rp := replaceAll rp ("\\*\\*/".data) ("(?:.*/)?".data)
  let rp := replaceAll rp ("/\\*\\*/".data) ("/(?:.*/)?".data)
  let rp := replaceAll rp ("\\*\\*".data) (".*".data)
  let rp := replaceAll rp ("\\*".data) ("[^/]*".data)
  let rp := replaceAll rp ("\\?".data) ("[^/]".data)
  let rp := '^' :: (rp ++ ['$'])
  match parseAnchored rp with
  | none => .error (("invalid pattern ".data) ++ pattern2)
  | some r => .ok (rmatch r path2)

/-- The resolved run configuration handed to the processor (`Config`). -/
structure Config where
  InputDir : Str := []
  OutputFile : Str := []
  IncludeGlobs : List Str := []
  ExcludeGlobs : List Str := []
  Verbose : Bool := false
  Compress : Bool := false
  MaxCompress : Bool := false
  Gzip : Bool := false
  Base64 : Bool := false

/-- The candidate a file rule is matched against: rules without a path
separator are matched against the base name, rules with one against the
full relative path (`isValidFile`, both loops). -/
def fileRuleCandidate (pattern relPath : Str) : Str :=
  if containsSub pattern ['/'] then relPath else pathBase relPath

/-- The exclude loop of `isValidFile`, parameterized by the matcher: a rule
whose match errors is logged and skipped; a matching rule rejects. -/
def fileExcludedWith (m : Str → Str → Except Str Bool)
    (patterns : List Str) (relPath : Str) : Bool :=
  match patterns with
  | [] => false
  | p :: rest =>
    match m p (fileRuleCandidate p relPath) with
    | .error _ => fileExcludedWith m rest relPath
    | .ok true => true
    | .ok false => fileExcludedWith m rest relPath

/-- The include loop of `isValidFile`, parameterized by the matcher. -/
def fileIncludedWith (m : Str → Str → Except Str Bool)
    (patterns : List Str) (relPath : Str) : Bool :=
  match patterns with
  | [] => false
  | p :: rest =>
    match m p (fileRuleCandidate p relPath) with
    | .error _ => fileIncludedWith m rest relPath
    | .ok true => true
    | .ok false => fileIncludedWith m rest relPath

/-- Models `fileProcessor.isValidFile` with the matcher abstracted:
exclude rules are checked first and reject outright; with no include rules
every file is accepted; otherwise some include rule must match. -/
def isValidFileWith (m : Str → Str → Except Str Bool)
    (excludeGlobs includeGlobs : List Str) (relPath : Str) : Bool :=
  if fileExcludedWith m excludeGlobs relPath then false
  else if includeGlobs = [] then true
  else fileIncludedWith m includeGlobs relPath

/-- Models `fileProcessor.isValidFile` (part_004). -/
def isValidFile (cfg : Config) (relPath : Str) : Bool :=
  isValidFileWith matchGlobPattern cfg.ExcludeGlobs cfg.IncludeGlobs relPath

/-- Models `fileProcessor.shouldIgnoreDir` with the matcher abstracted:
directories are matched on the full relative path; erroring rules are
logged and skipped. -/
def shouldIgnoreDirWith (m : Str → Str → Except Str Bool)
    (patterns : List Str) (relPath : Str) : Bool :=
  match patterns with
  | [] => false
  | p :: rest =>
    match m p relPath with
    | .error _ => shouldIgnoreDirWith m rest relPath
    | .ok true => true
    | .ok false => shouldIgnoreDirWith m rest relPath

/-- Models `fileProcessor.shouldIgnoreDir` (part_004). -/
def shouldIgnoreDir (cfg : Config) (relPath : Str) : Bool :=
  shouldIgnoreDirWith matchGlobPattern cfg.ExcludeGlobs relPath

/-- The word characters of the Go regexp `\w` (ASCII). -/
def isWordChar (c : Char) : Bool := c.isAlphanum || c = '_'

/-- The whitespace characters of the Go regexp `\s`. -/
def isPerlSpace (c : Char) : Bool :=
  c = '\t' || c = '\n' || c = '\x0c' || c = '\r' || c = ' '

/-- Fuel-driven worker for `wordNumReplace`; every step consumes at least
one character. -/
def wordNumF : Nat → Str → Str
  | 0, s => s
  | _ + 1, [] => []
  | f + 1, c :: t =>
    if isWordChar c then
      let afterW := t.dropWhile isWordChar
      let sp := afterW.takeWhile isPerlSpace
      let afterSp := afterW.dropWhile isPerlSpace
      let d := afterSp.takeWhile Char.isDigit
      if sp ≠ [] ∧ d ≠ [] then
        (c :: t.takeWhile isWordChar) ++ d ++ wordNumF f (afterSp.dropWhile Char.isDigit)
      else c :: wordNumF f t
    else c :: wordNumF f t

/-- Models `wordNumRegex.ReplaceAllString(str, "$1$2")` for the pattern
`(\w+)\s+(\d+)`: leftmost matches scanned left to right; each match is the
maximal word run, a nonempty whitespace run, and the maximal digit run, and
is replaced by the word and digit runs with the whitespace removed. -/
def wordNumReplace (s : Str) : Str := wordNumF s.length s

/-- The punctuation set whose adjacent spaces `compressContent` removes. -/
def goSymbols : List Char :=
  ['.', ',', ':', ';', ')', '(', '\x7b', '\x7d', '[', ']',
   '+', '-', '*', '/', '=', '<', '>', '&', '|', '!', '?']

/-- One symbol step of `compressContent`: remove the space on either side
(and both sides) of the symbol, in the source's replacement order. -/
def symbolStep (s : Str) (sym : Char) : Str :=
  let s := replaceAll s (' ' :: sym :: [' ']) [sym]
  let s := replaceAll s [' ', sym] [sym]
  replaceAll s [sym, ' '] [sym]

/-- Fuel-driven worker for `stripLineComments`; every step consumes at
least one character. -/
def stripLineF : Nat → Str → Str
  | 0, s => s
  | _ + 1, [] => []
  | f + 1, '/' :: '/' :: t => stripLineF f (t.dropWhile (fun c => !(c = '\n')))
  | f + 1, c :: t => c :: stripLineF f t

/-- Models the single-line comment removal `//.*` → `""`: delete from each
`//` to the end of its line. -/
def stripLineComments (s : Str) : Str := stripLineF s.length s

/-- Find the first `*/` and return the remainder after it. -/
def findBlockClose : Str → Option Str
  | [] => none
  | [_] => none
  | a :: b :: t => if a = '*' ∧ b = '/' then some t else findBlockClose (b :: t)

theorem findBlockClose_length_le :
    ∀ t rest, findBlockClose t = some rest → rest.length ≤ t.length := by
  intro t
  induction t with
  | nil => intro rest h; simp [findBlockClose] at h
  | cons a t ih =>
    intro rest h
    cases t with
    | nil => simp [findBlockClose] at h
    | cons b t2 =>
      simp only [findBlockClose] at h
      split at h
      · simp only [Option.some.injEq] at h
        subst h
        simp only [List.length_cons]
        omega
      · have := ih rest h
        simp only [List.length_cons] at *
        omega

/-- Models the non-greedy block comment removal `(?s)/\*.*?\*/` → `""`:
each `/*` with a later `*/` is deleted through the nearest `*/`; a `/*`
with no closing `*/` is left untouched (the regex finds no match there). -/
def stripBlockAux : Nat → Str → Str
  | 0, s => s
  | f + 1, s =>
    match s with
    | [] => []
    | '/' :: '*' :: t =>
      match findBlockClose t with
      | some rest => stripBlockAux f rest
      | none => '/' :: '*' :: t
    | c :: t => c :: stripBlockAux f t

/-- Block comment removal at full fuel. -/
def stripBlockComments (s : Str) : Str := stripBlockAux s.length s

/-- Models `removeComments` (part_004): single-line comments are removed
first, then block comments. -/
def removeComments (s : Str) : Str := stripBlockComments (stripLineComments s)

/-- The start-of-file marker literal. -/
def startMarker : Str := ("--- START OF FILE:".data)

/-- The end-of-file marker literal. -/
def endMarker : Str := ("--- END OF FILE:".data)

/-- Models `compressContent` (part_004): optional comment removal, newline
replacement and whitespace-field collapsing, symbol-adjacent space removal,
word-number space removal, and marker stripping in non-verbose mode. -/
def compressContent (content : Str) (cfg : Config) : Str :=
  let str := content
  let str := if cfg.MaxCompress then removeComments str else str
  let str := joinSep (fields (replaceAll str ['\n'] [' '])) [' ']
  let str := goSymbols.foldl symbolStep str
  let str := wordNumReplace str
  if !cfg.Verbose then
    replaceAll (replaceAll str startMarker []) endMarker []
  else str

/-- Models the `Summary` statistics record. -/
structure Summary where
  TotalFiles : Nat := 0
  ProcessedFiles : List Str := []
  SkippedFiles : List Str := []
  TotalBytes : Nat := 0
  StartTime : Nat := 0
  EndTime : Nat := 0

/-- UTF-8 encoding of one scalar value, as byte values. -/
def utf8EncodeChar (c : Char) : List Nat :=
  let n := c.toNat
  if n < 0x80 then [n]
  else if n < 0x800 then [0xC0 + n / 64, 0x80 + n % 64]
  else if n < 0x10000 then [0xE0 + n / 4096, 0x80 + n / 64 % 64, 0x80 + n % 64]
  else [0xF0 + n / 262144, 0x80 + n / 4096 % 64, 0x80 + n / 64 % 64, 0x80 + n % 64]

/-- The bytes of a Go string (UTF-8). -/
def utf8Bytes (s : Str) : List Nat := (s.map utf8EncodeChar).flatten

/-- The mutable processor state: the de-duplication set, the statistics,
the bytes streamed to the writer chain, and the verbose content buffer. -/
structure RunState where
  processedFiles : List Str := []
  summary : Summary := {}
  out : Str := []
  buf : Str := []

/-- One callback of `filepath.Walk` as seen by `processPath`: an access
error (skipped with a diagnostic), a directory, or a file together with the
result of reading it (`none` models a read error). -/
inductive WalkEntry where
  | accessErr (relPath : Str)
  | dirEntry (relPath : Str)
  | fileEntry (relPath : Str) (content : Option Str)

/-- The start separator written before a file body. -/
def sepStart (relPath : Str) : Str :=
  ("--- START OF FILE: ".data) ++ relPath ++ (" ---\n".data)

/-- The end separator written after a file body. -/
def sepEnd (relPath : Str) : Str :=
  ("\n--- END OF FILE: ".data) ++ relPath ++ (" ---\n\n".data)

/-- Models `fileProcessor.processFile` (part_004): invalid and unreadable
files are recorded as skipped; otherwise the statistics are updated, the
separators and (optionally compressed) content are written to the buffer
(verbose) or the writer chain, and the path is marked processed. -/
def processFileModel (cfg : Config) (st : RunState) (relPath : Str)
    (content : Option Str) : RunState :=
  if !(isValidFile cfg relPath) then
    { st with summary :=
      { st.summary with SkippedFiles := st.summary.SkippedFiles ++ [relPath] } }
  else
    match content with
    | none =>
      { st with summary :=
        { st.summary with SkippedFiles :=
          st.summary.SkippedFiles ++ [relPath ++ (" (read error)".data)] } }
    | some content =>
      let sum :=
        { st.summary with
          ProcessedFiles := st.summary.ProcessedFiles ++ [relPath]
          TotalBytes := st.summary.TotalBytes + (utf8Bytes content).length }
      let body := if cfg.Compress then compressContent content cfg else content
      let startSep :=
        if cfg.Compress then trimSpace (sepStart relPath) ++ [' ']
        else sepStart relPath
      let endSep :=
        if cfg.Compress then ' ' :: (trimSpace (sepEnd relPath) ++ [' '])
        else sepEnd relPath
      let st := { st with summary := sum }
      let st :=
        if cfg.Verbose then
          { st with buf := st.buf ++ startSep ++ body ++ endSep }
        else
          { st with out := st.out ++ startSep ++ body ++ endSep }
      { st with processedFiles := st.processedFiles ++ [relPath] }

/-- Models `fileProcessor.processPath` (part_004): access errors are
logged and skipped; a path already in the de-duplication set is skipped;
directories only influence which later callbacks occur (`SkipDir` pruning),
so they leave the state unchanged; files go to `processFile`. -/
def step (cfg : Config) (st : RunState) (e : WalkEntry) : RunState :=
  match e with
  | .accessErr _ => st
  | .dirEntry _ => st
  | .fileEntry relPath content =>
    if relPath ∈ st.processedFiles then st
    else processFileModel cfg st relPath content

/-- The state after a full traversal. -/
def runEvents (cfg : Config) (events : List WalkEntry) : RunState :=
  events.foldl (step cfg) {}

/-- Byte-wise lexicographic order on strings (Go `sort.Strings`). -/
def strLtB : Str → Str → Bool
  | [], [] => false
  | [], _ :: _ => true
  | _ :: _, [] => false
  | a :: as, b :: bs => if a < b then true else if b < a then false else strLtB as bs

/-- Models `sort.Strings`: stable sort under the lexicographic order. -/
def sortStrings (l : List Str) : List Str := l.mergeSort (fun a b => !(strLtB b a))

/-- Decimal rendering of a count (`%d`). -/
def natStr (n : Nat) : Str := (toString n).data

/-- Rendering of the elapsed `time.Duration` (`%v`), modelled for the
nanosecond range. -/
def renderDuration (n : Nat) : Str := natStr n ++ ("ns".data)

/-- The summary block rendered by `fileProcessor.writeSummary` (part_004):
both path lists are sorted, and the counts are the lengths of the sorted
lists. -/
def summaryText (sum : Summary) : Str :=
  let processed := sortStrings sum.ProcessedFiles
  let skipped := sortStrings sum.SkippedFiles
  ("--- CORPUS PACKER SUMMARY ---\nProcessing Time: ".data)
    ++ renderDuration (sum.EndTime - sum.StartTime)
    ++ ("\nTotal Files: ".data) ++ natStr (processed.length + skipped.length)
    ++ ("\nTotal Files Processed: ".data) ++ natStr processed.length
    ++ ("\nTotal Files Skipped: ".data) ++ natStr skipped.length
    ++ ("\nTotal Bytes Processed: ".data) ++ natStr sum.TotalBytes
    ++ ("\n\nProcessed Files:\n".data) ++ joinSep processed ['\n']
    ++ ("\n\nSkipped Files:\n".data) ++ joinSep skipped ['\n']
    ++ ("\n\n--- END OF SUMMARY ---\n\n".data)

/-- Models `writeSummary`: the rendered block, compressed when compression
is active. -/
def writeSummaryOut (cfg : Config) (sum : Summary) : Str :=
  if cfg.Compress then compressContent (summaryText sum) cfg else summaryText sum

/-- The plain (pre-encoding) text produced by a run: in verbose mode the
summary followed by the buffered content, otherwise the directly streamed
content. -/
def plainOutput (cfg : Config) (events : List WalkEntry) : Str :=
  let st := runEvents cfg events
  if cfg.Verbose then writeSummaryOut cfg st.summary ++ st.buf else st.out

/-- The base64 standard alphabet, as byte values. -/
def b64Table : List Nat :=
  (("ABCDEFGHIJKLMNOPQRSTUVWXYZabcdefghijklmnopqrstuvwxyz0123456789+/".data).map
    Char.toNat)

/-- The byte encoding a 6-bit group. -/
def b64E (n : Nat) : Nat := b64Table.getD n 0

/-- The 6-bit group of an alphabet byte, `none` for a non-alphabet byte. -/
def b64D (b : Nat) : Option Nat := b64Table.indexOf? b

/-- Models `base64.StdEncoding` encoding (RFC 4648, with padding). -/
def base64Encode : List Nat → List Nat
  | [] => []
  | [b1] => [b64E (b1 / 4), b64E (b1 % 4 * 16), 61, 61]
  | [b1, b2] => [b64E (b1 / 4), b64E (b1 % 4 * 16 + b2 / 16), b64E (b2 % 16 * 4), 61]
  | b1 :: b2 :: b3 :: rest =>
    [b64E (b1 / 4), b64E (b1 % 4 * 16 + b2 / 16),
     b64E (b2 % 16 * 4 + b3 / 64), b64E (b3 % 64)] ++ base64Encode rest

/-- Standard base64 decoding: the inverse used by the round-trip claim. -/
def base64Decode : List Nat → Except Str (List Nat)
  | [] => .ok []
  | c1 :: c2 :: c3 :: c4 :: rest =>
    match b64D c1, b64D c2 with
    | some v1, some v2 =>
      if c3 = 61 then
        if c4 = 61 ∧ rest = [] ∧ v2 % 16 = 0 then .ok [v1 * 4 + v2 / 16]
        else .error ("invalid base64 padding".data)
      else if c4 = 61 then
        match b64D c3 with
        | some v3 =>
          if rest = [] ∧ v3 % 4 = 0 then
            .ok [v1 * 4 + v2 / 16, v2 % 16 * 16 + v3 / 4]
          else .error ("invalid base64 padding".data)
        | none => .error ("invalid base64 byte".data)
      else
        match b64D c3, b64D c4 with
        | some v3, some v4 =>
          match base64Decode rest with
          | .ok bs =>
            .ok ([v1 * 4 + v2 / 16, v2 % 16 * 16 + v3 / 4, v3 % 4 * 64 + v4] ++ bs)
          | .error e => .error e
        | _, _ => .error ("invalid base64 byte".data)
    | _, _ => .error ("invalid base64 byte".data)
  | _ => .error ("invalid base64 length".data)

/-- Abstract model of the gzip stream codec (`compress/gzip`): a run of the
compressor is inverted by a run of the decompressor. The DEFLATE byte
format itself is not modelled; the inversion contract is what the
round-trip verification consumes. -/
def gzipCompress (bs : List Nat) : List Nat := 31 :: 139 :: bs

/-- Inverse of the abstract gzip compressor; rejects a stream without the
gzip magic header. -/
def gzipDecompress : List Nat → Except Str (List Nat)
  | 31 :: 139 :: bs => .ok bs
  | _ => .error ("gzip: invalid header".data)

/-- The writer chain of `ProcessDirectory`: content flows through the gzip
compressor (when active) and then the base64 encoder (when active) into the
output file, so the file holds `base64(gzip(plain))`, `gzip(plain)` or the
plain bytes. -/
def encodeChain (cfg : Config) (bs : List Nat) : List Nat :=
  if cfg.Gzip then
    (if cfg.Base64 then base64Encode (gzipCompress bs) else gzipCompress bs)
  else bs

/-- Models `ProcessDirectory` (part_004) after configuration resolution and
path validation: base64 without gzip is rejected before any traversal or
write; otherwise the traversal callbacks are folded through the processor
and the resulting text is pushed through the writer chain. -/
def processDirectoryModel (cfg : Config) (events : List WalkEntry) :
    Except Str (List Nat) :=
  if cfg.Base64 && !cfg.Gzip then .error ("--base64 requires --gzip".data)
  else .ok (encodeChain cfg (utf8Bytes (plainOutput cfg events)))

theorem fileExcludedWith_of_mem {m : Str → Str → Except Str Bool}
    {patterns : List Str} {relPath q : Str} (hq : q ∈ patterns)
    (hm : m q (fileRuleCandidate q relPath) = .ok true) :
    fileExcludedWith m patterns relPath = true := by
  induction patterns with
  | nil => cases hq
  | cons p rest ih =>
    rcases List.mem_cons.mp hq with rfl | hq'
    · simp [fileExcludedWith, hm]
    · cases h : m p (fileRuleCandidate p relPath) with
      | error e => simp [fileExcludedWith, h, ih hq']
      | ok b => cases b <;> simp [fileExcludedWith, h, ih hq']

/-- C1: for every relative path and configuration whose exclude-glob list
has a rule matching the path (base-name rule for separator-free patterns,
full-path rule otherwise) and whose include-glob list also has a matching
rule, `isValidFile` returns false: exclude dominates include. -/
theorem exclude_overrides_include (cfg : Config) (relPath q : Str)
    (hq : q ∈ cfg.ExcludeGlobs)
    (hmatch : matchGlobPattern q (fileRuleCandidate q relPath) = .ok true)
    (_hinc : ∃ r ∈ cfg.IncludeGlobs,
      matchGlobPattern r (fileRuleCandidate r relPath) = .ok true) :
    isValidFile cfg relPath = false := by
  unfold isValidFile isValidFileWith
  rw [fileExcludedWith_of_mem hq hmatch]
  simp

theorem exclude_overrides_include_witness :
    isValidFile
      { ExcludeGlobs := [("*.go").data], IncludeGlobs := [("a.go").data] }
      (("a.go").data) = false :=
  exclude_overrides_include _ _ (("*.go").data) (by simp) (by rfl)
    ⟨(("a.go").data), by simp, by rfl⟩

/-- C3: with Base64 set and Gzip unset, the run fails with the
configuration error, uniformly in the traversal (no directory is walked and
no content byte reaches the output). -/
theorem base64_without_gzip_fails (cfg : Config) (events : List WalkEntry)
    (h1 : cfg.Base64 = true) (h2 : cfg.Gzip = false) :
    processDirectoryModel cfg events = .error (("--base64 requires --gzip").data) ∧
    ∀ events2, processDirectoryModel cfg events = processDirectoryModel cfg events2 := by
  refine ⟨by simp [processDirectoryModel, h1, h2], fun events2 => ?_⟩
  simp [processDirectoryModel, h1, h2]

theorem base64_without_gzip_fails_witness :
    ({ Base64 := true } : Config).Base64 = true ∧
    ({ Base64 := true } : Config).Gzip = false ∧
    processDirectoryModel { Base64 := true }
      [WalkEntry.fileEntry (("a.go").data) (some (("x").data))] =
      .error (("--base64 requires --gzip").data) :=
  ⟨rfl, rfl, (base64_without_gzip_fails _ _ rfl rfl).1⟩

/-- C7: with maxCompress enabled the transformation is exactly comment
removal followed by the compress-mode pipeline. -/
theorem maxCompress_is_compress_after_comments (content : Str) (cfg : Config)
    (h : cfg.MaxCompress = true) :
    compressContent content cfg =
      compressContent (removeComments content) { cfg with MaxCompress := false } := by
  simp only [compressContent, h, if_true, Bool.not_eq_true]
  rfl

theorem maxCompress_is_compress_after_comments_witness :
    ({ MaxCompress := true } : Config).MaxCompress = true ∧
    compressContent (("a // b\nc /* d */ e").data) { MaxCompress := true } =
      compressContent (removeComments (("a // b\nc /* d */ e").data))
        { ({ MaxCompress := true } : Config) with MaxCompress := false } :=
  ⟨rfl, maxCompress_is_compress_after_comments _ _ rfl⟩

/-- C10: in the rendered summary the Total Files count is the sum of the
lengths of the processed and skipped lists, and the processed and skipped
counts are the lengths of the corresponding sorted lists (sorting preserves
length, so of the original lists as well). -/
theorem summary_counts_match_lists (sum : Summary) :
    summaryText sum =
      ("--- CORPUS PACKER SUMMARY ---\nProcessing Time: ".data)
        ++ renderDuration (sum.EndTime - sum.StartTime)
        ++ ("\nTotal Files: ".data)
        ++ natStr (sum.ProcessedFiles.length + sum.SkippedFiles.length)
        ++ ("\nTotal Files Processed: ".data) ++ natStr sum.ProcessedFiles.length
        ++ ("\nTotal Files Skipped: ".data) ++ natStr sum.SkippedFiles.length
        ++ ("\nTotal Bytes Processed: ".data) ++ natStr sum.TotalBytes
        ++ ("\n\nProcessed Files:\n".data)
        ++ joinSep (sortStrings sum.ProcessedFiles) ['\n']
        ++ ("\n\nSkipped Files:\n".data)
        ++ joinSep (sortStrings sum.SkippedFiles) ['\n']
        ++ ("\n\n--- END OF SUMMARY ---\n\n".data) := by
  simp only [summaryText, sortStrings, List.length_mergeSort]

/-- A matcher in which the rule `q` is forced to report "no match"; the
fail-open contract says an erroring rule must behave exactly like this. -/
def maskRule (m : Str → Str → Except Str Bool) (q : Str) :
    Str → Str → Except Str Bool :=
  fun p s => if p = q then .ok false else m p s

theorem fileExcludedWith_mask (m : Str → Str → Except Str Bool) (q : Str)
    (herr : ∀ s, ∃ e, m q s = .error e) (patterns : List Str) (relPath : Str) :
    fileExcludedWith m patterns relPath =
      fileExcludedWith (maskRule m q) patterns relPath := by
  induction patterns with
  | nil => rfl
  | cons p rest ih =>
    by_cases hpq : p = q
    · subst hpq
      obtain ⟨e, he⟩ := herr (fileRuleCandidate p relPath)
      simp [fileExcludedWith, he, maskRule, ih]
    · cases h : m p (fileRuleCandidate p relPath) with
      | error e => simp [fileExcludedWith, maskRule, hpq, h, ih]
      | ok b => cases b <;> simp [fileExcludedWith, maskRule, hpq, h, ih]

theorem fileIncludedWith_mask (m : Str → Str → Except Str Bool) (q : Str)
    (herr : ∀ s, ∃ e, m q s = .error e) (patterns : List Str) (relPath : Str) :
    fileIncludedWith m patterns relPath =
      fileIncludedWith (maskRule m q) patterns relPath := by
  induction patterns with
  | nil => rfl
  | cons p rest ih =>
    by_cases hpq : p = q
    · subst hpq
      obtain ⟨e, he⟩ := herr (fileRuleCandidate p relPath)
      simp [fileIncludedWith, he, maskRule, ih]
    · cases h : m p (fileRuleCandidate p relPath) with
      | error e => simp [fileIncludedWith, maskRule, hpq, h, ih]
      | ok b => cases b <;> simp [fileIncludedWith, maskRule, hpq, h, ih]

/-- C9: a rule whose pattern fails to compile (its match attempts all
return errors) is fail-open per rule: the filtering predicates behave
exactly as if that rule reported "no match" while every other rule is still
evaluated, and a run is never aborted by matching errors (the model only
fails on the base64-without-gzip configuration error). -/
theorem bad_pattern_fails_open (m : Str → Str → Except Str Bool) (q : Str)
    (herr : ∀ s, ∃ e, m q s = .error e) :
    (∀ excl incl relPath,
      isValidFileWith m excl incl relPath =
        isValidFileWith (maskRule m q) excl incl relPath) ∧
    (∀ excl relPath,
      shouldIgnoreDirWith m excl relPath =
        shouldIgnoreDirWith (maskRule m q) excl relPath) ∧
    (∀ cfg events, (cfg.Base64 && !cfg.Gzip) = false →
      ∃ bs, processDirectoryModel cfg events = .ok bs) := by
  refine ⟨fun excl incl relPath => ?_, fun excl relPath => ?_, fun cfg events h => ?_⟩
  · unfold isValidFileWith
    rw [fileExcludedWith_mask m q herr, fileIncludedWith_mask m q herr]
  · induction excl with
    | nil => rfl
    | cons p rest ih =>
      by_cases hpq : p = q
      · subst hpq
        obtain ⟨e, he⟩ := herr relPath
        simp [shouldIgnoreDirWith, he, maskRule, ih]
      · cases h : m p relPath with
        | error e => simp [shouldIgnoreDirWith, maskRule, hpq, h, ih]
        | ok b => cases b <;> simp [shouldIgnoreDirWith, maskRule, hpq, h, ih]
  · exact ⟨encodeChain cfg (utf8Bytes (plainOutput cfg events)),
      by simp [processDirectoryModel, h]⟩

theorem bad_pattern_fails_open_witness :
    (∀ s, ∃ e, (fun (_ _ : Str) => (Except.error (("boom").data) : Except Str Bool))
      (("[").data) s = .error e) ∧
    isValidFileWith (fun (_ _ : Str) => (Except.error (("boom").data) : Except Str Bool))
      [("[").data] [] (("f.go").data) =
      isValidFileWith
        (maskRule (fun (_ _ : Str) => (Except.error (("boom").data) : Except Str Bool))
          (("[").data))
        [("[").data] [] (("f.go").data) :=
  ⟨fun _ => ⟨(("boom").data), rfl⟩,
    (bad_pattern_fails_open _ _ (fun _ => ⟨(("boom").data), rfl⟩)).1 _ _ _⟩

theorem step_count_inv (cfg : Config) (p : Str) (st : RunState) (e : WalkEntry)
    (h1 : List.count p st.summary.ProcessedFiles ≤ 1)
    (h2 : List.count p st.summary.ProcessedFiles = 1 → p ∈ st.processedFiles) :
    List.count p (step cfg st e).summary.ProcessedFiles ≤ 1 ∧
    (List.count p (step cfg st e).summary.ProcessedFiles = 1 →
      p ∈ (step cfg st e).processedFiles) := by
  cases e with
  | accessErr _ => exact ⟨h1, h2⟩
  | dirEntry _ => exact ⟨h1, h2⟩
  | fileEntry rel content =>
    simp only [step]
    split
    · exact ⟨h1, h2⟩
    · rename_i hni
      unfold processFileModel
      split
      · exact ⟨h1, h2⟩
      · cases content with
        | none => exact ⟨h1, h2⟩
        | some body =>
          simp only
          by_cases hpr : p = rel
          · subst hpr
            have hc0 : List.count p st.summary.ProcessedFiles = 0 := by
              rcases Nat.lt_or_ge (List.count p st.summary.ProcessedFiles) 1 with h | h
              · omega
              · exact absurd (h2 (by omega)) hni
            constructor
            · split <;> simp [List.count_append, hc0]
            · intro _
              split <;> simp
          · have hcp : List.count p (st.summary.ProcessedFiles ++ [rel]) =
                List.count p st.summary.ProcessedFiles := by
              simp [List.count_append, List.count_singleton', hpr]
            constructor
            · split <;> simpa [hcp] using h1
            · intro hc
              have : p ∈ st.processedFiles := by
                apply h2
                revert hc
                split <;> simp [hcp]
              split <;> simp [this]

theorem foldl_count_inv (cfg : Config) (p : Str) (events : List WalkEntry) :
    ∀ st : RunState,
      List.count p st.summary.ProcessedFiles ≤ 1 →
      (List.count p st.summary.ProcessedFiles = 1 → p ∈ st.processedFiles) →
      List.count p (events.foldl (step cfg) st).summary.ProcessedFiles ≤ 1 := by
  induction events with
  | nil => intro st h1 _; exact h1
  | cons e es ih =>
    intro st h1 h2
    obtain ⟨h1', h2'⟩ := step_count_inv cfg p st e h1 h2
    exact ih (step cfg st e) h1' h2'

/-- C8: a file block is emitted at most once per canonical relative path
(the processed list never records a path twice), and once a path is in the
de-duplication set a later visit of the same path leaves the entire state
unchanged. -/
theorem file_emitted_at_most_once :
    (∀ (cfg : Config) (events : List WalkEntry) (p : Str),
      List.count p ((runEvents cfg events).summary.ProcessedFiles) ≤ 1) ∧
    (∀ (cfg : Config) (st : RunState) (relPath : Str) (content : Option Str),
      relPath ∈ st.processedFiles →
      step cfg st (.fileEntry relPath content) = st) := by
  constructor
  · intro cfg events p
    exact foldl_count_inv cfg p events {} (by simp) (by simp)
  · intro cfg st relPath content h
    simp [step, h]

theorem file_emitted_at_most_once_witness :
    (("a.go").data) ∈
      ({ processedFiles := [("a.go").data] } : RunState).processedFiles ∧
    step {} { processedFiles := [("a.go").data] }
      (.fileEntry (("a.go").data) (some (("x").data))) =
      { processedFiles := [("a.go").data] } :=
  ⟨by simp,
    file_emitted_at_most_once.2 {} { processedFiles := [("a.go").data] }
      (("a.go").data) (some (("x").data)) (by simp)⟩

theorem b64D_b64E : ∀ x, x < 64 → b64D (b64E x) = some x := by decide

theorem b64E_ne_61 : ∀ x, x < 64 → b64E x ≠ 61 := by decide

theorem base64_roundtrip : ∀ bs : List Nat, (∀ x ∈ bs, x < 256) →
    base64Decode (base64Encode bs) = .ok bs
  | [], _ => rfl
  | [b1], h => by
    have hb1 : b1 < 256 := h b1 (by simp)
    have e1 : b64D (b64E (b1 / 4)) = some (b1 / 4) := b64D_b64E _ (by omega)
    have e2 : b64D (b64E (b1 % 4 * 16)) = some (b1 % 4 * 16) := b64D_b64E _ (by omega)
    have m1 : b1 % 4 * 16 % 16 = 0 := by omega
    have m2 : b1 / 4 * 4 + b1 % 4 * 16 / 16 = b1 := by omega
    simp [base64Encode, base64Decode, e1, e2, m1, m2]
    omega
  | [b1, b2], h => by
    have hb1 : b1 < 256 := h b1 (by simp)
    have hb2 : b2 < 256 := h b2 (by simp)
    have e1 : b64D (b64E (b1 / 4)) = some (b1 / 4) := b64D_b64E _ (by omega)
    have e2 : b64D (b64E (b1 % 4 * 16 + b2 / 16)) = some (b1 % 4 * 16 + b2 / 16) :=
      b64D_b64E _ (by omega)
    have e3 : b64D (b64E (b2 % 16 * 4)) = some (b2 % 16 * 4) := b64D_b64E _ (by omega)
    have n3 : b64E (b2 % 16 * 4) ≠ 61 := b64E_ne_61 _ (by omega)
    have m1 : b2 % 16 * 4 % 4 = 0 := by omega
    have m2 : b1 / 4 * 4 + (b1 % 4 * 16 + b2 / 16) / 16 = b1 := by omega
    have m3 : (b1 % 4 * 16 + b2 / 16) % 16 * 16 + b2 % 16 * 4 / 4 = b2 := by omega
    simp [base64Encode, base64Decode, e1, e2, e3, n3, m1, m2, m3]
    omega
  | b1 :: b2 :: b3 :: r :: rest, h => by
    have hb1 : b1 < 256 := h b1 (by simp)
    have hb2 : b2 < 256 := h b2 (by simp)
    have hb3 : b3 < 256 := h b3 (by simp)
    have ih := base64_roundtrip (r :: rest) (fun x hx => h x (by simp [hx]))
    have e1 : b64D (b64E (b1 / 4)) = some (b1 / 4) := b64D_b64E _ (by omega)
    have e2 : b64D (b64E (b1 % 4 * 16 + b2 / 16)) = some (b1 % 4 * 16 + b2 / 16) :=
      b64D_b64E _ (by omega)
    have e3 : b64D (b64E (b2 % 16 * 4 + b3 / 64)) = some (b2 % 16 * 4 + b3 / 64) :=
      b64D_b64E _ (by omega)
    have e4 : b64D (b64E (b3 % 64)) = some (b3 % 64) := b64D_b64E _ (by omega)
    have n3 : b64E (b2 % 16 * 4 + b3 / 64) ≠ 61 := b64E_ne_61 _ (by omega)
    have n4 : b64E (b3 % 64) ≠ 61 := b64E_ne_61 _ (by omega)
    have m1 : b1 / 4 * 4 + (b1 % 4 * 16 + b2 / 16) / 16 = b1 := by omega
    have m2 : (b1 % 4 * 16 + b2 / 16) % 16 * 16 + (b2 % 16 * 4 + b3 / 64) / 4 = b2 := by
      omega
    have m3 : (b2 % 16 * 4 + b3 / 64) % 4 * 64 + b3 % 64 = b3 := by omega
    simp [base64Encode, base64Decode, e1, e2, e3, e4, n3, n4, ih, m1, m2, m3]
  | [b1, b2, b3], h => by
    have hb1 : b1 < 256 := h b1 (by simp)
    have hb2 : b2 < 256 := h b2 (by simp)
    have hb3 : b3 < 256 := h b3 (by simp)
    have e1 : b64D (b64E (b1 / 4)) = some (b1 / 4) := b64D_b64E _ (by omega)
    have e2 : b64D (b64E (b1 % 4 * 16 + b2 / 16)) = some (b1 % 4 * 16 + b2 / 16) :=
      b64D_b64E _ (by omega)
    have e3 : b64D (b64E (b2 % 16 * 4 + b3 / 64)) = some (b2 % 16 * 4 + b3 / 64) :=
      b64D_b64E _ (by omega)
    have e4 : b64D (b64E (b3 % 64)) = some (b3 % 64) := b64D_b64E _ (by omega)
    have n3 : b64E (b2 % 16 * 4 + b3 / 64) ≠ 61 := b64E_ne_61 _ (by omega)
    have n4 : b64E (b3 % 64) ≠ 61 := b64E_ne_61 _ (by omega)
    have m1 : b1 / 4 * 4 + (b1 % 4 * 16 + b2 / 16) / 16 = b1 := by omega
    have m2 : (b1 % 4 * 16 + b2 / 16) % 16 * 16 + (b2 % 16 * 4 + b3 / 64) / 4 = b2 := by
      omega
    have m3 : (b2 % 16 * 4 + b3 / 64) % 4 * 64 + b3 % 64 = b3 := by omega
    simp [base64Encode, base64Decode, e1, e2, e3, e4, n3, n4, m1, m2, m3]

theorem char_toNat_lt (c : Char) : c.toNat < 1114112 := by
  have h := c.valid
  unfold UInt32.isValidChar Nat.isValidChar at h
  rcases h with h | ⟨h1, h2⟩
  · calc c.toNat = c.val.toNat := rfl
      _ < 0xD800 := h
      _ < 1114112 := by norm_num
  · exact h2

theorem utf8EncodeChar_lt (c : Char) : ∀ x ∈ utf8EncodeChar c, x < 256 := by
  have h := char_toNat_lt c
  simp only [utf8EncodeChar]
  split_ifs with h1 h2 h3 <;> intro x hx <;>
    simp only [List.mem_cons, List.mem_singleton, List.not_mem_nil, or_false] at hx
  · omega
  · rcases hx with rfl | rfl <;> omega
  · rcases hx with rfl | rfl | rfl <;> omega
  · rcases hx with rfl | rfl | rfl | rfl <;> omega

theorem utf8Bytes_lt (s : Str) : ∀ x ∈ utf8Bytes s, x < 256 := by
  intro x hx
  unfold utf8Bytes at hx
  rw [List.mem_flatten] at hx
  obtain ⟨l, hl, hxl⟩ := hx
  rw [List.mem_map] at hl
  obtain ⟨c, _, rfl⟩ := hl
  exact utf8EncodeChar_lt c x hxl

theorem step_encoding_flags (cfg : Config) (g b : Bool) :
    step { cfg with Gzip := g, Base64 := b } = step cfg := by
  funext st e
  cases e <;> rfl

theorem plainOutput_encoding_flags (cfg : Config) (g b : Bool)
    (events : List WalkEntry) :
    plainOutput { cfg with Gzip := g, Base64 := b } events = plainOutput cfg events := by
  unfold plainOutput runEvents
  rw [step_encoding_flags]
  rfl

/-- C2: the gzip+base64 run writes `base64(gzip(plain))` where `plain` is
exactly the output of the run with both flags off and all other settings
equal; base64-decoding and then gzip-decompressing the encoded artifact
recovers those plain bytes. -/
theorem gzip_base64_roundtrip (cfg : Config) (events : List WalkEntry) :
    ∃ enc plain,
      processDirectoryModel { cfg with Gzip := true, Base64 := true } events = .ok enc ∧
      processDirectoryModel { cfg with Gzip := false, Base64 := false } events =
        .ok plain ∧
      (base64Decode enc).bind gzipDecompress = .ok plain := by
  refine ⟨base64Encode (gzipCompress (utf8Bytes (plainOutput cfg events))),
    utf8Bytes (plainOutput cfg events), ?_, ?_, ?_⟩
  · simp [processDirectoryModel, encodeChain, plainOutput_encoding_flags]
  · simp [processDirectoryModel, encodeChain, plainOutput_encoding_flags]
  · have hlt : ∀ x ∈ gzipCompress (utf8Bytes (plainOutput cfg events)), x < 256 := by
      intro x hx
      unfold gzipCompress at hx
      rcases List.mem_cons.mp hx with rfl | hx
      · omega
      · rcases List.mem_cons.mp hx with rfl | hx
        · omega
        · exact utf8Bytes_lt _ x hx
    rw [base64_roundtrip _ hlt]
    rfl

theorem isPrefixOf_append_of {sub a : Str} (b : Str)
    (h : sub.isPrefixOf a = true) : sub.isPrefixOf (a ++ b) = true := by
  induction sub generalizing a with
  | nil => simp [List.isPrefixOf]
  | cons c s ih =>
    cases a with
    | nil => simp [List.isPrefixOf] at h
    | cons d a' =>
      simp only [List.isPrefixOf, List.cons_append, Bool.and_eq_true, beq_iff_eq] at h ⊢
      exact ⟨h.1, ih h.2⟩

theorem isPrefixOf_self_append (s t : Str) : s.isPrefixOf (s ++ t) = true := by
  induction s with
  | nil => simp [List.isPrefixOf]
  | cons c s' ih => simp [List.isPrefixOf, ih]

theorem containsSub_of_isPrefixOf {s sub : Str} (h : sub.isPrefixOf s = true) :
    containsSub s sub = true := by
  unfold containsSub
  rw [h]
  simp

theorem containsSub_append_left {a sub : Str} (b : Str)
    (h : containsSub a sub = true) : containsSub (a ++ b) sub = true := by
  induction a with
  | nil =>
    have hp : sub.isPrefixOf ([] : Str) = true := by
      unfold containsSub at h
      split at h
      · assumption
      · simp at h
    exact containsSub_of_isPrefixOf (isPrefixOf_append_of b hp)
  | cons c a' ih =>
    unfold containsSub at h
    split at h
    · rename_i hp
      exact containsSub_of_isPrefixOf (isPrefixOf_append_of b hp)
    · have h2 := ih h
      rw [List.cons_append]
      unfold containsSub
      split
      · simp
      · exact h2

theorem containsSub_append_right {b sub : Str} (a : Str)
    (h : containsSub b sub = true) : containsSub (a ++ b) sub = true := by
  induction a with
  | nil => simpa using h
  | cons c a' ih =>
    rw [List.cons_append]
    unfold containsSub
    split
    · simp
    · exact ih

theorem trimSpace_sepStart (rel : Str) :
    trimSpace (sepStart rel) =
      (("--- START OF FILE: ").data) ++ rel ++ ((" ---").data) := by
  have hsep : sepStart rel =
      ((("--- START OF FILE: ").data) ++ rel ++ ((" ---").data)) ++ ['\n'] := by
    unfold sepStart
    rw [show ((" ---\n").data) = ((" ---").data) ++ ['\n'] from rfl]
    simp [List.append_assoc]
  rw [hsep]
  unfold trimSpace
  rw [List.reverse_append, show (['\n'] : Str).reverse = ['\n'] from rfl]
  rw [List.singleton_append]
  rw [show ∀ x : Str, trimLeft ('\n' :: x) = trimLeft x from fun x => rfl]
  rw [List.append_assoc, List.reverse_append,
    show ((rel ++ ((" ---").data)).reverse) =
      ((" ---").data).reverse ++ rel.reverse from List.reverse_append _ _]
  rw [show (((" ---").data) : Str).reverse = ['-', '-', '-', ' '] from rfl]
  simp only [List.cons_append, List.nil_append]
  rw [show ∀ x : Str, trimLeft ('-' :: x) = '-' :: x from fun x => rfl]
  simp only [List.reverse_cons, List.reverse_append, List.reverse_reverse,
    List.append_assoc, List.cons_append, List.nil_append, List.reverse_nil]
  rw [show ∀ x : Str, trimLeft ('-' :: x) = '-' :: x from fun x => rfl]

/-- C4 counterexample: a compress-mode, non-verbose run that emits one file
produces output that does contain the `--- START OF FILE:` marker (written
by the per-file separator), refuting the claim that the markers are
entirely absent. -/
theorem compress_output_keeps_markers_counterexample :
    ({ Compress := true } : Config).Compress = true ∧
    ({ Compress := true } : Config).Verbose = false ∧
    containsSub
      (plainOutput { Compress := true }
        [.fileEntry (("a.txt").data) (some (("hello").data))])
      startMarker = true := by
  refine ⟨rfl, rfl, by decide⟩

theorem step_marker_inv (cfg : Config) (st : RunState) (e : WalkEntry)
    (hc : cfg.Compress = true) (hv : cfg.Verbose = false)
    (h : st.summary.ProcessedFiles ≠ [] → containsSub st.out startMarker = true) :
    (step cfg st e).summary.ProcessedFiles ≠ [] →
      containsSub (step cfg st e).out startMarker = true := by
  cases e with
  | accessErr _ => exact h
  | dirEntry _ => exact h
  | fileEntry rel content =>
    simp only [step]
    split
    · exact h
    · unfold processFileModel
      split
      · exact h
      · cases content with
        | none => exact h
        | some body =>
          simp only [hc, hv, if_true, if_false, Bool.false_eq_true]
          intro _
          have hsep : containsSub (trimSpace (sepStart rel) ++ [' ']) startMarker
              = true := by
            apply containsSub_of_isPrefixOf
            rw [trimSpace_sepStart]
            rw [show (("--- START OF FILE: ").data) = startMarker ++ [' '] from rfl]
            simp only [List.append_assoc]
            exact isPrefixOf_self_append _ _
          rw [show st.out ++ (trimSpace (sepStart rel) ++ [' ']) ++
              compressContent body cfg ++
              (' ' :: (trimSpace (sepEnd rel) ++ [' '])) =
            st.out ++ ((trimSpace (sepStart rel) ++ [' ']) ++
              (compressContent body cfg ++
                (' ' :: (trimSpace (sepEnd rel) ++ [' '])))) by simp]
          apply containsSub_append_right
          apply containsSub_append_left
          exact hsep

/-- C4 amended: in every compress-mode, non-verbose run that emits at least
one file, the final output still contains the `--- START OF FILE:` marker:
the marker stripping inside `compressContent` applies only to the
transformed file content, while the per-file separators are written with
the markers intact. -/
theorem compress_nonverbose_output_contains_markers (cfg : Config)
    (events : List WalkEntry)
    (hc : cfg.Compress = true) (hv : cfg.Verbose = false)
    (hne : (runEvents cfg events).summary.ProcessedFiles ≠ []) :
    containsSub (plainOutput cfg events) startMarker = true := by
  have main : ∀ (evs : List WalkEntry) (st : RunState),
      (st.summary.ProcessedFiles ≠ [] → containsSub st.out startMarker = true) →
      ((evs.foldl (step cfg) st).summary.ProcessedFiles ≠ [] →
        containsSub (evs.foldl (step cfg) st).out startMarker = true) := by
    intro evs
    induction evs with
    | nil => intro st h; exact h
    | cons e es ih =>
      intro st h
      exact ih (step cfg st e) (step_marker_inv cfg st e hc hv h)
  unfold plainOutput
  rw [hv]
  simp only [Bool.false_eq_true, if_false]
  exact main events {} (by intro hx; exact absurd rfl hx) hne

theorem compress_nonverbose_output_contains_markers_witness :
    ({ Compress := true } : Config).Compress = true ∧
    ({ Compress := true } : Config).Verbose = false ∧
    (runEvents { Compress := true }
      [.fileEntry (("b.md").data) (some (("hi").data))]).summary.ProcessedFiles ≠ [] ∧
    containsSub
      (plainOutput { Compress := true }
        [.fileEntry (("b.md").data) (some (("hi").data))])
      startMarker = true :=
  ⟨rfl, rfl, by decide,
    compress_nonverbose_output_contains_markers _ _ rfl rfl (by decide)⟩

/-- The compiled form of the translated pattern `**/*.go`:
`^(?:.*/)?[^/]*\.go$`. -/
def rxGoPattern : Rx :=
  Rx.seq
    (Rx.alt
      (Rx.seq (Rx.star (Rx.cls (fun x => !(x = '\n'))))
        (Rx.seq (Rx.cls (fun x => x = '/')) Rx.eps))
      Rx.eps)
    (Rx.seq (Rx.star (Rx.cls (fun x => !((['/'] : Str).contains x))))
      (Rx.seq (Rx.cls (fun x => x = '.'))
        (Rx.seq (Rx.cls (fun x => x = 'g'))
          (Rx.seq (Rx.cls (fun x => x = 'o')) Rx.eps))))

theorem flatten_map_singleton (u : Str) : (u.map (fun c => [c])).flatten = u := by
  induction u with
  | nil => rfl
  | cons c t ih => simp [ih]

theorem star_cls_of_all {f : Char → Bool} {u : Str} (h : ∀ c ∈ u, f c = true) :
    RxLang (Rx.star (Rx.cls f)) u := by
  refine ⟨u.map (fun c => [c]), ?_, (flatten_map_singleton u).symm⟩
  intro w hw
  rw [List.mem_map] at hw
  obtain ⟨c, hc, rfl⟩ := hw
  exact ⟨⟨c, rfl, h c hc⟩, by simp⟩

theorem rxGoPattern_matches (pre b : Str)
    (hpre : pre = [] ∨ (∃ a, pre = a ++ ['/'] ∧ ∀ c ∈ a, c ≠ '\n'))
    (hb : ∀ c ∈ b, c ≠ '/') :
    rmatch rxGoPattern (pre ++ b ++ ['.', 'g', 'o']) = true := by
  rw [rmatch_iff]
  refine ⟨pre, b ++ ['.', 'g', 'o'], by simp, ?_, ?_⟩
  · rcases hpre with rfl | ⟨a, rfl, ha⟩
    · right; rfl
    · left
      refine ⟨a, ['/'], rfl, ?_, ⟨['/'], [], rfl, ⟨'/', rfl, by simp⟩, rfl⟩⟩
      exact star_cls_of_all (fun c hc => by simp [ha c hc])
  · refine ⟨b, ['.', 'g', 'o'], rfl, ?_, ?_⟩
    · exact star_cls_of_all (fun c hc => by
        simp [List.contains, hb c hc])
    · exact ⟨['.'], ['g', 'o'], rfl, ⟨'.', rfl, by simp⟩,
        ⟨['g'], ['o'], rfl, ⟨'g', rfl, by simp⟩,
          ⟨['o'], [], rfl, ⟨'o', rfl, by simp⟩, rfl⟩⟩⟩

theorem mg_go_eval (p q : Str) (c2 c3 : Char) (hcl : pathClean p = q)
    (hq : pathExt q = ['.', c2, c3]) :
    matchGlobPattern (("**/*.go").data) p =
      .ok (rmatch rxGoPattern (q.take (q.length - 3) ++ asciiToLower ['.', c2, c3])) := by
  have hP : pathClean (("**/*.go").data) = (("**/*.go").data) := rfl
  have hPE : pathExt (("**/*.go").data) = ['.', 'g', 'o'] := rfl
  simp only [matchGlobPattern, hcl, hq, hP, hPE]
  rw [if_pos (⟨by simp, by simp⟩ : (['.','g','o'] : Str) ≠ [] ∧ (['.',c2,c3] : Str) ≠ [])]
  rw [if_pos (⟨by simp, by simp⟩ : (['.','g','o'] : Str) ≠ [] ∧ (['.',c2,c3] : Str) ≠ [])]
  rw [show ((("**/*.go").data).take ((("**/*.go").data).length -
    (['.','g','o'] : Str).length) ++ asciiToLower ['.','g','o']) = (("**/*.go").data)
    from rfl]
  rw [show parseAnchored ('^' :: (replaceAll (replaceAll (replaceAll (replaceAll
    (replaceAll (quoteMeta (("**/*.go").data)) (("\\*\\*/").data) (("(?:.*/)?").data))
    (("/\\*\\*/").data) (("/(?:.*/)?").data)) (("\\*\\*").data) ((".*").data))
    (("\\*").data) (("[^/]*").data)) (("\\?").data) (("[^/]").data) ++ ['$'])) =
    some rxGoPattern from rfl]
  simp only [List.length_cons, List.length_nil]

theorem splitSlash_no_slash {x : Str} (h : '/' ∉ x) : splitSlash x = [x] := by
  induction x with
  | nil => rfl
  | cons c t ih =>
    have hc : c ≠ '/' := fun hc => h (hc ▸ List.mem_cons_self c t)
    have ht : '/' ∉ t := fun hm => h (List.mem_cons_of_mem c hm)
    simp only [splitSlash, if_neg hc, ih ht]

theorem splitSlash_append {x : Str} (rest : Str) (h : '/' ∉ x) :
    splitSlash (x ++ '/' :: rest) = x :: splitSlash rest := by
  induction x with
  | nil => simp [splitSlash]
  | cons c t ih =>
    have hc : c ≠ '/' := fun hc => h (hc ▸ List.mem_cons_self c t)
    have ht : '/' ∉ t := fun hm => h (List.mem_cons_of_mem c hm)
    rw [List.cons_append]
    simp only [splitSlash, if_neg hc, ih ht]

theorem splitSlash_joinSlash : ∀ l : List Str, (∀ e ∈ l, '/' ∉ e) → l ≠ [] →
    splitSlash (joinSlash l) = l
  | [], _, h => absurd rfl h
  | [x], h, _ => splitSlash_no_slash (h x (by simp))
  | x :: y :: t, h, _ => by
    have hx : '/' ∉ x := h x (by simp)
    have hrest : splitSlash (joinSlash (y :: t)) = y :: t :=
      splitSlash_joinSlash (y :: t) (fun e he => h e (by simp [he])) (by simp)
    show splitSlash (x ++ ['/'] ++ joinSlash (y :: t)) = x :: y :: t
    rw [List.append_assoc, List.singleton_append, splitSlash_append _ hx, hrest]

theorem joinSlash_concat : ∀ (l : List Str) (b : Str), l ≠ [] →
    joinSlash (l ++ [b]) = joinSlash l ++ '/' :: b
  | [], _, h => absurd rfl h
  | [x], b, _ => by
    show x ++ ['/'] ++ joinSlash [b] = x ++ '/' :: b
    simp [joinSlash, joinSep]
  | x :: y :: t, b, _ => by
    show x ++ ['/'] ++ joinSlash ((y :: t) ++ [b]) = (x ++ ['/'] ++ joinSlash (y :: t)) ++ '/' :: b
    rw [joinSlash_concat (y :: t) b (by simp)]
    simp

theorem foldl_cleanPush_mem (r : Bool) :
    ∀ (l : List Str) (acc : List Str) (x : Str),
      x ∈ l.foldl (cleanPush r) acc → x ∈ acc ∨ x ∈ l
  | [], acc, x, h => Or.inl h
  | e :: l', acc, x, h => by
    rcases foldl_cleanPush_mem r l' (cleanPush r acc e) x h with h2 | h2
    · unfold cleanPush at h2
      split at h2
      · split at h2
        · split at h2
          · rcases List.mem_append.mp h2 with h3 | h3
            · exact Or.inl h3
            · exact Or.inr (by simp [List.mem_singleton.mp h3, *])
          · exact Or.inl (List.dropLast_subset _ h2)
        · split at h2
          · simp at h2
          · exact Or.inr (by simp [List.mem_singleton.mp h2, *])
      · rcases List.mem_append.mp h2 with h3 | h3
        · exact Or.inl h3
        · exact Or.inr (by simp [List.mem_singleton.mp h3])
    · exact Or.inr (List.mem_cons_of_mem e h2)

theorem joinSlash_chars : ∀ (l : List Str) (c : Char), c ∈ joinSlash l →
    c = '/' ∨ ∃ e ∈ l, c ∈ e
  | [], c, h => by simp [joinSlash, joinSep] at h
  | [x], c, h => Or.inr ⟨x, by simp, h⟩
  | x :: y :: t, c, h => by
    have : c ∈ x ++ ['/'] ++ joinSlash (y :: t) := h
    rcases List.mem_append.mp this with h2 | h2
    · rcases List.mem_append.mp h2 with h3 | h3
      · exact Or.inr ⟨x, by simp, h3⟩
      · exact Or.inl (List.mem_singleton.mp h3)
    · rcases joinSlash_chars (y :: t) c h2 with h3 | ⟨e, he, hce⟩
      · exact Or.inl h3
      · exact Or.inr ⟨e, by simp [he], hce⟩

theorem pathClean_dirs_base (dirs : List Str) (base : Str)
    (hd : ∀ d ∈ dirs, d ≠ [] ∧ '/' ∉ d)
    (hbne : base ≠ []) (hbs : '/' ∉ base)
    (hbdot : base ≠ ['.']) (hbdd : base ≠ ['.', '.']) :
    ∃ pre, pathClean (joinSlash (dirs ++ [base])) = pre ++ base ∧
      (pre = [] ∨ ∃ a, pre = a ++ ['/'] ∧
        ∀ c ∈ a, c = '/' ∨ ∃ d ∈ dirs, c ∈ d) := by
  have hpne : joinSlash (dirs ++ [base]) ≠ [] := by
    cases dirs with
    | nil => simpa [joinSlash, joinSep] using hbne
    | cons d rest =>
      cases h : rest ++ [base] with
      | nil => exact absurd h (by simp)
      | cons y t =>
        show joinSlash (d :: (rest ++ [base])) ≠ []
        rw [h]
        show d ++ ['/'] ++ joinSlash (y :: t) ≠ []
        simp
  have hroot : ¬ ((joinSlash (dirs ++ [base])).head? = some '/') := by
    cases dirs with
    | nil =>
      cases base with
      | nil => exact absurd rfl hbne
      | cons b0 bt =>
        show (joinSlash [b0 :: bt]).head? ≠ some '/'
        intro hcon
        have : b0 = '/' := by
          simpa [joinSlash, joinSep] using hcon
        exact hbs (this ▸ List.mem_cons_self b0 bt)
    | cons d rest =>
      cases h : rest ++ [base] with
      | nil => exact absurd h (by simp)
      | cons y t =>
        show (joinSlash (d :: (rest ++ [base]))).head? ≠ some '/'
        rw [h]
        show (d ++ ['/'] ++ joinSlash (y :: t)).head? ≠ some '/'
        obtain ⟨hdne, hds⟩ := hd d (by simp)
        cases d with
        | nil => exact absurd rfl hdne
        | cons d0 dt =>
          intro hcon
          have : d0 = '/' := by simpa using hcon
          exact hds (this ▸ List.mem_cons_self d0 dt)
  have hsplit : splitSlash (joinSlash (dirs ++ [base])) = dirs ++ [base] := by
    apply splitSlash_joinSlash
    · intro e he
      rcases List.mem_append.mp he with h2 | h2
      · exact (hd e h2).2
      · rw [List.mem_singleton.mp h2]; exact hbs
    · simp
  unfold pathClean
  rw [if_neg hpne, hsplit]
  have hfb : List.filter (fun e => decide (e ≠ [] ∧ e ≠ ['.'])) [base] = [base] := by
    simp [List.filter, hbne, hbdot]
  simp only [decide_eq_false hroot, if_neg hroot, List.filter_append, hfb,
    List.foldl_append, List.foldl_cons, List.foldl_nil, List.nil_append]
  set stD := List.foldl (cleanPush false)
    [] (List.filter (fun e => decide (e ≠ [] ∧ e ≠ ['.'])) dirs) with hstD
  have hfold : cleanPush false stD base = stD ++ [base] := by
    unfold cleanPush
    rw [if_neg hbdd]
  rw [hfold]
  have hstDmem : ∀ e ∈ stD, e ∈ dirs := by
    intro e he
    rcases foldl_cleanPush_mem false _ [] e (hstD ▸ he) with h2 | h2
    · simp at h2
    · exact List.mem_of_mem_filter h2
  cases hcase : stD with
  | nil =>
    refine ⟨[], ?_, Or.inl rfl⟩
    have : joinSlash ([] ++ [base]) = base := by simp [joinSlash, joinSep]
    rw [this]
    rw [if_neg (by simpa using hbne)]
    simp
  | cons s0 st =>
    rw [joinSlash_concat _ _ (by simp)]
    rw [if_neg (by simp : ¬(joinSlash (s0 :: st) ++ '/' :: base = []))]
    refine ⟨joinSlash (s0 :: st) ++ ['/'], by simp, Or.inr ⟨joinSlash (s0 :: st), rfl, ?_⟩⟩
    intro c hc
    rcases joinSlash_chars _ c hc with h2 | ⟨e, he, hce⟩
    · exact Or.inl h2
    · exact Or.inr ⟨e, hstDmem e (hcase ▸ he), hce⟩

theorem pathExt_concat3 (x : Str) (c2 c3 : Char)
    (h2s : c2 ≠ '/') (h2d : c2 ≠ '.') (h3s : c3 ≠ '/') (h3d : c3 ≠ '.') :
    pathExt (x ++ ['.', c2, c3]) = ['.', c2, c3] := by
  unfold pathExt
  rw [List.reverse_append]
  rw [show (['.', c2, c3] : Str).reverse = [c3, c2, '.'] from by simp]
  show extAux (c3 :: c2 :: '.' :: x.reverse) [] = ['.', c2, c3]
  simp [extAux, h2s, h2d, h3s, h3d]

/-- C6 counterexample: the path `a\nb/x.go` has final segment `x.go` ending
in `.go`, yet the matcher rejects it: `**/` translates to `(?:.*/)?` whose
`.` does not match a newline, so a newline inside a leading directory
segment defeats the pattern. -/
theorem glob_go_newline_counterexample :
    pathBase (("a\nb/x.go").data) = (("x.go").data) ∧
    matchGlobPattern (("**/*.go").data) (("a\nb/x.go").data) = .ok false :=
  ⟨rfl, by rfl⟩

/-- C6 amended: for the pattern `**/*.go` and every relative path whose
final segment ends in `.go` (case-insensitive extension), the matcher
returns true for any number of leading directory segments including zero,
provided no leading segment contains a newline character (the translated
`(?:.*/)?` uses `.`, which does not match newline). -/
theorem glob_go_matches (dirs : List Str) (stem : Str) (c2 c3 : Char)
    (hdirs : ∀ d ∈ dirs, d ≠ [] ∧ '/' ∉ d ∧ '\n' ∉ d)
    (hslash : '/' ∉ stem ++ ['.', c2, c3])
    (hc2 : c2 = 'g' ∨ c2 = 'G') (hc3 : c3 = 'o' ∨ c3 = 'O') :
    matchGlobPattern (("**/*.go").data)
      (joinSlash (dirs ++ [stem ++ ['.', c2, c3]])) = .ok true := by
  have h2s : c2 ≠ '/' := by rcases hc2 with rfl | rfl <;> decide
  have h2d : c2 ≠ '.' := by rcases hc2 with rfl | rfl <;> decide
  have h3s : c3 ≠ '/' := by rcases hc3 with rfl | rfl <;> decide
  have h3d : c3 ≠ '.' := by rcases hc3 with rfl | rfl <;> decide
  have hbne : stem ++ ['.', c2, c3] ≠ [] := by simp
  have hbdot : stem ++ ['.', c2, c3] ≠ ['.'] := by
    intro h
    have := congrArg List.length h
    simp at this
  have hbdd : stem ++ ['.', c2, c3] ≠ ['.', '.'] := by
    intro h
    have := congrArg List.length h
    simp at this
  obtain ⟨pre, hclean, hpre⟩ :=
    pathClean_dirs_base dirs (stem ++ ['.', c2, c3])
      (fun d hd => ⟨(hdirs d hd).1, (hdirs d hd).2.1⟩) hbne hslash hbdot hbdd
  have hext : pathExt (pre ++ (stem ++ ['.', c2, c3])) = ['.', c2, c3] := by
    rw [show pre ++ (stem ++ ['.', c2, c3]) = (pre ++ stem) ++ ['.', c2, c3] from by
      simp]
    exact pathExt_concat3 _ _ _ h2s h2d h3s h3d
  rw [mg_go_eval _ _ c2 c3 hclean hext]
  have htake : (pre ++ (stem ++ ['.', c2, c3])).take
      ((pre ++ (stem ++ ['.', c2, c3])).length - 3) = pre ++ stem := by
    rw [show pre ++ (stem ++ ['.', c2, c3]) = (pre ++ stem) ++ ['.', c2, c3] from by
      simp]
    apply List.take_left'
    simp
    omega
  have hlow : asciiToLower ['.', c2, c3] = ['.', 'g', 'o'] := by
    rcases hc2 with rfl | rfl <;> rcases hc3 with rfl | rfl <;> rfl
  rw [htake, hlow]
  have hb' : ∀ c ∈ stem, c ≠ '/' := by
    intro c hc hcon
    exact hslash (hcon ▸ List.mem_append_left _ hc)
  have hpre' : pre = [] ∨ ∃ a, pre = a ++ ['/'] ∧ ∀ c ∈ a, c ≠ '\n' := by
    rcases hpre with rfl | ⟨a, rfl, ha⟩
    · exact Or.inl rfl
    · refine Or.inr ⟨a, rfl, ?_⟩
      intro c hc
      rcases ha c hc with rfl | ⟨d, hd2, hcd⟩
      · decide
      · intro hcon
        exact (hdirs d hd2).2.2 (hcon ▸ hcd)
  rw [rxGoPattern_matches pre stem hpre' hb']

theorem glob_go_matches_witness :
    matchGlobPattern (("**/*.go").data)
      (joinSlash ([("sub").data] ++ [("x").data ++ ['.', 'G', 'o']])) = .ok true :=
  glob_go_matches [("sub").data] (("x").data) 'G' 'o'
    (by decide) (by decide) (Or.inr rfl) (Or.inl rfl)

theorem applyRep_quoteMeta (r : Rx) (t : Str) :
    applyRep r (quoteMeta t) = some (r, quoteMeta t) := by
  cases t with
  | nil => rfl
  | cons a t' =>
    unfold quoteMeta
    by_cases h : a ∈ rxSpecials
    · rw [if_pos h]
      rfl
    · rw [if_neg h]
      have h1 : a ≠ '*' := fun hh => h (hh ▸ (by decide : ('*' : Char) ∈ rxSpecials))
      have h2 : a ≠ '?' := fun hh => h (hh ▸ (by decide : ('?' : Char) ∈ rxSpecials))
      have h3 : a ≠ '+' := fun hh => h (hh ▸ (by decide : ('+' : Char) ∈ rxSpecials))
      have h4 : a ≠ '\x7b' := fun hh =>
        h (hh ▸ (by decide : ('\x7b' : Char) ∈ rxSpecials))
      simp [applyRep, h1, h2, h3, h4]

/-- The sequence of single-character atoms for a literal string. -/
def litAtoms (p : Str) : List Rx := p.map (fun c => Rx.cls (fun x => x = c))

theorem parseSeq_quoteMeta (p : Str) : ∀ f, (quoteMeta p).length < f →
    parseSeqFuel f (quoteMeta p) = some (litAtoms p, []) := by
  induction p with
  | nil =>
    intro f hf
    cases f with
    | zero => omega
    | succ f' => rfl
  | cons c t ih =>
    intro f hf
    by_cases h : c ∈ rxSpecials
    · have hq : quoteMeta (c :: t) = '\\' :: c :: quoteMeta t := by
        simp [quoteMeta, h]
      rw [hq] at hf ⊢
      cases f with
      | zero => omega
      | succ f' =>
        have hlen : (quoteMeta t).length < f' := by
          simp only [List.length_cons] at hf
          omega
        simp [parseSeqFuel, h, applyRep_quoteMeta, ih f' hlen, litAtoms]
    · have hq : quoteMeta (c :: t) = c :: quoteMeta t := by
        simp [quoteMeta, h]
      rw [hq] at hf ⊢
      cases f with
      | zero => omega
      | succ f' =>
        have hlen : (quoteMeta t).length < f' := by
          simp only [List.length_cons] at hf
          omega
        have hn1 : c ≠ ')' := fun hh => h (hh ▸ (by decide : (')' : Char) ∈ rxSpecials))
        have hn2 : c ≠ '\\' :=
          fun hh => h (hh ▸ (by decide : ('\\' : Char) ∈ rxSpecials))
        have hn3 : c ≠ '.' := fun hh => h (hh ▸ (by decide : ('.' : Char) ∈ rxSpecials))
        have hn4 : c ≠ '[' := fun hh => h (hh ▸ (by decide : ('[' : Char) ∈ rxSpecials))
        have hn5 : c ≠ '(' := fun hh => h (hh ▸ (by decide : ('(' : Char) ∈ rxSpecials))
        simp [parseSeqFuel, h, hn1, hn2, hn3, hn4, hn5, applyRep_quoteMeta,
          ih f' hlen, litAtoms]

theorem parseAnchored_quoteMeta (p : Str) :
    parseAnchored ('^' :: (quoteMeta p ++ ['$'])) = some (seqList (litAtoms p)) := by
  show (match (quoteMeta p ++ ['$']).getLast? with
    | some '$' =>
      match parseSeqFuel ((quoteMeta p ++ ['$']).length + 1) (quoteMeta p ++ ['$']).dropLast with
      | some (atoms, []) => some (seqList atoms)
      | _ => none
    | _ => none) = some (seqList (litAtoms p))
  rw [List.getLast?_concat, List.dropLast_concat]
  rw [parseSeq_quoteMeta p _ (show (quoteMeta p).length <
    (quoteMeta p ++ ['$']).length + 1 by simp; omega)]
  rfl

theorem litSeq_lang (p : Str) : ∀ s, RxLang (seqList (litAtoms p)) s ↔ s = p := by
  induction p with
  | nil =>
    intro s
    show RxLang Rx.eps s ↔ s = []
    exact Iff.rfl
  | cons c t ih =>
    intro s
    show RxLang (Rx.seq (Rx.cls (fun x => x = c)) (seqList (litAtoms t))) s ↔ s = c :: t
    constructor
    · rintro ⟨u, v, rfl, ⟨d, rfl, hd⟩, hv⟩
      have hdc : d = c := by simpa using hd
      rw [(ih v).mp hv, hdc]
      rfl
    · rintro rfl
      exact ⟨[c], t, rfl, ⟨c, rfl, by simp⟩, (ih t).mpr rfl⟩

theorem isPrefixOf_mem {old s : Str} (h : old.isPrefixOf s = true) :
    ∀ c ∈ old, c ∈ s := by
  induction old generalizing s with
  | nil => simp
  | cons o os ih =>
    cases s with
    | nil => simp [List.isPrefixOf] at h
    | cons d t =>
      simp only [List.isPrefixOf, Bool.and_eq_true, beq_iff_eq] at h
      intro c hc
      rcases List.mem_cons.mp hc with rfl | hc'
      · exact h.1 ▸ List.mem_cons_self _ _
      · exact List.mem_cons_of_mem _ (ih h.2 c hc')

theorem replaceAllF_skip {old : Str} (new : Str) {w : Char}
    (hw : w ∈ old) : ∀ (f : Nat) (s : Str), w ∉ s → replaceAllF old new f s = s := by
  intro f
  induction f with
  | zero => intro s _; rfl
  | succ f' ih =>
    intro s hs
    cases s with
    | nil => rfl
    | cons c t =>
      have hnp : old.isPrefixOf (c :: t) ≠ true := by
        intro hp
        exact hs (isPrefixOf_mem hp w hw)
      simp only [replaceAllF, if_neg hnp]
      rw [ih t (fun hm => hs (List.mem_cons_of_mem c hm))]

theorem replaceAll_skip {s old : Str} (new : Str) {w : Char}
    (hw : w ∈ old) (hs : w ∉ s) : replaceAll s old new = s := by
  unfold replaceAll
  split
  · rfl
  · exact replaceAllF_skip new hw s.length s hs

theorem mem_quoteMeta {c : Char} (hc : c ≠ '\\') {p : Str}
    (h : c ∈ quoteMeta p) : c ∈ p := by
  induction p with
  | nil => simp [quoteMeta] at h
  | cons a t ih =>
    by_cases ha : a ∈ rxSpecials
    · rw [show quoteMeta (a :: t) = '\\' :: a :: quoteMeta t from by
        simp [quoteMeta, ha]] at h
      rcases List.mem_cons.mp h with rfl | h2
      · exact absurd rfl hc
      · rcases List.mem_cons.mp h2 with rfl | h3
        · exact List.mem_cons_self _ _
        · exact List.mem_cons_of_mem _ (ih h3)
    · rw [show quoteMeta (a :: t) = a :: quoteMeta t from by
        simp [quoteMeta, ha]] at h
      rcases List.mem_cons.mp h with rfl | h2
      · exact List.mem_cons_self _ _
      · exact List.mem_cons_of_mem _ (ih h2)

theorem splitSlash_chars {p : Str} :
    ∀ {e : Str}, e ∈ splitSlash p → ∀ {c : Char}, c ∈ e → c ∈ p := by
  induction p with
  | nil =>
    intro e he c hc
    simp only [splitSlash, List.mem_singleton] at he
    subst he
    simp at hc
  | cons a t ih =>
    intro e he c hc
    by_cases ha : a = '/'
    · subst ha
      simp only [splitSlash, if_pos rfl] at he
      rcases List.mem_cons.mp he with rfl | h2
      · simp at hc
      · exact List.mem_cons_of_mem _ (ih h2 hc)
    · simp only [splitSlash, if_neg ha] at he
      rcases hsp : splitSlash t with _ | ⟨e0, rest⟩
      · rw [hsp] at he
        simp only [List.mem_singleton] at he
        subst he
        rcases List.mem_singleton.mp hc with rfl
        exact List.mem_cons_self _ _
      · rw [hsp] at he
        rcases List.mem_cons.mp he with rfl | h2
        · rcases List.mem_cons.mp hc with rfl | h3
          · exact List.mem_cons_self _ _
          · exact List.mem_cons_of_mem _ (ih (hsp ▸ List.mem_cons_self e0 rest) h3)
        · exact List.mem_cons_of_mem _ (ih (hsp ▸ List.mem_cons_of_mem e0 h2) hc)

theorem mem_pathClean {p : Str} {c : Char} (h : c ∈ pathClean p) :
    c = '/' ∨ c = '.' ∨ c ∈ p := by
  have hjoin : ∀ r, c ∈ joinSlash (List.foldl (cleanPush r) []
      (List.filter (fun e => decide (e ≠ [] ∧ e ≠ ['.'])) (splitSlash p))) →
      c = '/' ∨ c = '.' ∨ c ∈ p := by
    intro r h2
    rcases joinSlash_chars _ c h2 with h3 | ⟨e, he, hce⟩
    · exact Or.inl h3
    · rcases foldl_cleanPush_mem _ _ _ _ he with h4 | h4
      · simp at h4
      · right; right
        exact splitSlash_chars (List.mem_of_mem_filter h4) hce
  unfold pathClean at h
  split at h
  · right; left
    exact List.mem_singleton.mp h
  · dsimp only at h
    split at h
    · split at h
      · right; left
        exact List.mem_singleton.mp h
      · rcases List.mem_append.mp h with h2 | h2
        · exact Or.inl (List.mem_singleton.mp h2)
        · exact hjoin _ h2
    · split at h
      · right; left
        exact List.mem_singleton.mp h
      · rw [List.nil_append] at h
        exact hjoin _ h

theorem extAux_mem : ∀ (rl acc : Str) {c : Char}, c ∈ extAux rl acc →
    c = '.' ∨ c ∈ rl ∨ c ∈ acc := by
  intro rl
  induction rl with
  | nil => intro acc c h; simp [extAux] at h
  | cons a t ih =>
    intro acc c h
    by_cases ha : a = '/'
    · simp [extAux, ha] at h
    · by_cases hd : a = '.'
      · rw [show extAux (a :: t) acc = '.' :: acc from by simp [extAux, ha, hd]] at h
        rcases List.mem_cons.mp h with rfl | h2
        · exact Or.inl rfl
        · exact Or.inr (Or.inr h2)
      · rw [show extAux (a :: t) acc = extAux t (a :: acc) from by
          simp [extAux, ha, hd]] at h
        rcases ih (a :: acc) h with h2 | h2 | h2
        · exact Or.inl h2
        · exact Or.inr (Or.inl (List.mem_cons_of_mem a h2))
        · rcases List.mem_cons.mp h2 with rfl | h3
          · exact Or.inr (Or.inl (List.mem_cons_self _ _))
          · exact Or.inr (Or.inr h3)

theorem mem_pathExt {p : Str} {c : Char} (h : c ∈ pathExt p) : c = '.' ∨ c ∈ p := by
  rcases extAux_mem p.reverse [] h with h2 | h2 | h2
  · exact Or.inl h2
  · exact Or.inr (List.mem_reverse.mp h2)
  · simp at h2

theorem char_ofNat_toNat {n : Nat} (h : n.isValidChar) : (Char.ofNat n).toNat = n := by
  unfold Char.ofNat
  rw [dif_pos h]
  rfl

theorem mem_asciiToLower {e : Str} {c : Char} (h : c ∈ asciiToLower e) :
    c ∈ e ∨ (97 ≤ c.toNat ∧ c.toNat ≤ 122) := by
  unfold asciiToLower at h
  rw [List.mem_map] at h
  obtain ⟨d, hd, rfl⟩ := h
  unfold lowerChar
  split
  · rename_i hup
    right
    have h1 : 65 ≤ d.toNat := hup.1
    have h2 : d.toNat ≤ 90 := hup.2
    have hv : (d.toNat + 32).isValidChar := by
      left
      omega
    rw [char_ofNat_toNat hv]
    omega
  · exact Or.inl hd

theorem extAux_spec : ∀ (rl acc : Str), extAux rl acc = [] ∨
    ∃ v rl', rl = v ++ '.' :: rl' ∧ (∀ c ∈ v, c ≠ '.' ∧ c ≠ '/') ∧
      extAux rl acc = '.' :: (v.reverse ++ acc) := by
  intro rl
  induction rl with
  | nil => intro acc; exact Or.inl rfl
  | cons a t ih =>
    intro acc
    by_cases ha : a = '/'
    · left
      simp [extAux, ha]
    · by_cases hd : a = '.'
      · right
        refine ⟨[], t, by rw [hd]; rfl, by simp, ?_⟩
        simp [extAux, ha, hd]
      · rcases ih (a :: acc) with h2 | ⟨v, rl', ht, hv, hres⟩
        · left
          rw [show extAux (a :: t) acc = extAux t (a :: acc) from by
            simp [extAux, ha, hd]]
          exact h2
        · right
          refine ⟨a :: v, rl', by rw [ht]; rfl, ?_, ?_⟩
          · intro c hc
            rcases List.mem_cons.mp hc with rfl | hc'
            · exact ⟨hd, ha⟩
            · exact hv c hc'
          · rw [show extAux (a :: t) acc = extAux t (a :: acc) from by
              simp [extAux, ha, hd], hres]
            simp

theorem pathExt_spec (s : Str) : pathExt s = [] ∨
    ∃ r x, pathExt s = '.' :: r ∧ s = x ++ '.' :: r ∧
      (∀ c ∈ r, c ≠ '.' ∧ c ≠ '/') := by
  rcases extAux_spec s.reverse [] with h | ⟨v, rl', ht, hv, hres⟩
  · exact Or.inl h
  · right
    refine ⟨v.reverse, rl'.reverse, by simpa using hres, ?_, ?_⟩
    · have := congrArg List.reverse ht
      rw [List.reverse_reverse] at this
      rw [this]
      simp
    · intro c hc
      exact hv c (List.mem_reverse.mp hc)

theorem extAux_clean_run (u : Str) (hu : ∀ c ∈ u, c ≠ '.' ∧ c ≠ '/') :
    ∀ (w acc : Str), extAux (u.reverse ++ '.' :: w) acc = '.' :: (u ++ acc) := by
  induction u using List.reverseRecOn with
  | nil => intro w acc; simp [extAux]
  | append_singleton u' c ih =>
    intro w acc
    have hc := hu c (by simp)
    rw [List.reverse_append]
    rw [show (([c] : Str).reverse ++ u'.reverse) ++ '.' :: w =
      c :: (u'.reverse ++ '.' :: w) from by simp]
    rw [show extAux (c :: (u'.reverse ++ '.' :: w)) acc =
      extAux (u'.reverse ++ '.' :: w) (c :: acc) from by
        simp [extAux, hc.1, hc.2]]
    rw [ih (fun d hd => hu d (by simp [hd])) w (c :: acc)]
    simp

theorem pathExt_append_clean (x r : Str) (hr : ∀ c ∈ r, c ≠ '.' ∧ c ≠ '/') :
    pathExt (x ++ '.' :: r) = '.' :: r := by
  unfold pathExt
  rw [show (x ++ '.' :: r).reverse = r.reverse ++ '.' :: x.reverse from by simp]
  rw [extAux_clean_run r hr x.reverse []]
  simp

theorem asciiToLower_clean (r : Str) (hr : ∀ c ∈ r, c ≠ '.' ∧ c ≠ '/') :
    ∀ c ∈ asciiToLower r, c ≠ '.' ∧ c ≠ '/' := by
  intro c hc
  rcases mem_asciiToLower hc with h | ⟨h1, h2⟩
  · exact hr c h
  · constructor
    · intro hcon
      rw [hcon] at h1
      have : ('.' : Char).toNat = 46 := rfl
      omega
    · intro hcon
      rw [hcon] at h1
      have : ('/' : Char).toNat = 47 := rfl
      omega

/-- Normalization used by the specification's statement about literal
patterns: path-clean the string, then lower-case its extension. Stated from
the spec's words, for comparison with the code's conditional lowering. -/
def normalizeGlob (s : Str) : Str :=
  let c := pathClean s
  c.take (c.length - (pathExt c).length) ++ asciiToLower (pathExt c)

theorem normalizeGlob_of_ext_nil {s : Str} (h : pathExt (pathClean s) = []) :
    normalizeGlob s = pathClean s := by
  unfold normalizeGlob
  dsimp only
  rw [h]
  simp [asciiToLower]

theorem normalizeGlob_ext {s : Str} (h : pathExt (pathClean s) ≠ []) :
    pathExt (normalizeGlob s) = asciiToLower (pathExt (pathClean s)) := by
  rcases pathExt_spec (pathClean s) with h0 | ⟨r, x, he, hs, hr⟩
  · exact absurd h0 h
  · unfold normalizeGlob
    dsimp only
    rw [he]
    have hx : (pathClean s).take ((pathClean s).length - ('.' :: r).length) = x := by
      rw [hs]
      apply List.take_left'
      simp
    rw [hx]
    rw [show asciiToLower ('.' :: r) = '.' :: asciiToLower r from rfl]
    rw [pathExt_append_clean x _ (asciiToLower_clean r hr)]

/-- C5: a glob pattern with no `*` and no `?` matches exactly the
candidates whose normalization (path-clean plus extension lower-casing)
equals the normalized pattern. -/
theorem literal_pattern_matches_iff (pat path : Str)
    (hstar : '*' ∉ pat) (hqm : '?' ∉ pat) :
    (matchGlobPattern pat path = .ok true) ↔
      normalizeGlob path = normalizeGlob pat := by
  have hPstar : '*' ∉ pathClean pat := by
    intro hm
    rcases mem_pathClean hm with h | h | h
    · exact absurd h (by decide)
    · exact absurd h (by decide)
    · exact hstar h
  have hPqm : '?' ∉ pathClean pat := by
    intro hm
    rcases mem_pathClean hm with h | h | h
    · exact absurd h (by decide)
    · exact absurd h (by decide)
    · exact hqm h
  have hNstar : '*' ∉ normalizeGlob pat := by
    intro hm
    unfold normalizeGlob at hm
    dsimp only at hm
    rcases List.mem_append.mp hm with h | h
    · exact hPstar (List.mem_of_mem_take h)
    · rcases mem_asciiToLower h with h2 | ⟨h3, h4⟩
      · rcases mem_pathExt h2 with h5 | h5
        · exact absurd h5 (by decide)
        · exact hPstar h5
      · have : ('*' : Char).toNat = 42 := rfl
        omega
  have hNqm : '?' ∉ normalizeGlob pat := by
    intro hm
    unfold normalizeGlob at hm
    dsimp only at hm
    rcases List.mem_append.mp hm with h | h
    · exact hPqm (List.mem_of_mem_take h)
    · rcases mem_asciiToLower h with h2 | ⟨h3, h4⟩
      · rcases mem_pathExt h2 with h5 | h5
        · exact absurd h5 (by decide)
        · exact hPqm h5
      · have : ('?' : Char).toNat = 63 := rfl
        omega
  by_cases hcond : pathExt (pathClean pat) ≠ [] ∧ pathExt (pathClean path) ≠ []
  · have heval : matchGlobPattern pat path =
        .ok (rmatch (seqList (litAtoms (normalizeGlob pat))) (normalizeGlob path)) := by
      simp only [matchGlobPattern]
      rw [if_pos hcond, if_pos hcond]
      rw [show (pathClean pat).take ((pathClean pat).length -
          (pathExt (pathClean pat)).length) ++ asciiToLower (pathExt (pathClean pat)) =
        normalizeGlob pat from rfl]
      rw [show (pathClean path).take ((pathClean path).length -
          (pathExt (pathClean path)).length) ++ asciiToLower (pathExt (pathClean path)) =
        normalizeGlob path from rfl]
      rw [replaceAll_skip _ (show ('*' : Char) ∈ (("\\*\\*/").data) by decide)
        (fun hm => hNstar (mem_quoteMeta (by decide) hm))]
      rw [replaceAll_skip _ (show ('*' : Char) ∈ (("/\\*\\*/").data) by decide)
        (fun hm => hNstar (mem_quoteMeta (by decide) hm))]
      rw [replaceAll_skip _ (show ('*' : Char) ∈ (("\\*\\*").data) by decide)
        (fun hm => hNstar (mem_quoteMeta (by decide) hm))]
      rw [replaceAll_skip _ (show ('*' : Char) ∈ (("\\*").data) by decide)
        (fun hm => hNstar (mem_quoteMeta (by decide) hm))]
      rw [replaceAll_skip _ (show ('?' : Char) ∈ (("\\?").data) by decide)
        (fun hm => hNqm (mem_quoteMeta (by decide) hm))]
      rw [parseAnchored_quoteMeta]
    rw [heval]
    simp only [Except.ok.injEq]
    exact (rmatch_iff _ _).trans (litSeq_lang _ _)
  · have heval : matchGlobPattern pat path =
        .ok (rmatch (seqList (litAtoms (pathClean pat))) (pathClean path)) := by
      simp only [matchGlobPattern]
      rw [if_neg hcond, if_neg hcond]
      rw [replaceAll_skip _ (show ('*' : Char) ∈ (("\\*\\*/").data) by decide)
        (fun hm => hPstar (mem_quoteMeta (by decide) hm))]
      rw [replaceAll_skip _ (show ('*' : Char) ∈ (("/\\*\\*/").data) by decide)
        (fun hm => hPstar (mem_quoteMeta (by decide) hm))]
      rw [replaceAll_skip _ (show ('*' : Char) ∈ (("\\*\\*").data) by decide)
        (fun hm => hPstar (mem_quoteMeta (by decide) hm))]
      rw [replaceAll_skip _ (show ('*' : Char) ∈ (("\\*").data) by decide)
        (fun hm => hPstar (mem_quoteMeta (by decide) hm))]
      rw [replaceAll_skip _ (show ('?' : Char) ∈ (("\\?").data) by decide)
        (fun hm => hPqm (mem_quoteMeta (by decide) hm))]
      rw [parseAnchored_quoteMeta]
    rw [heval]
    simp only [Except.ok.injEq]
    rw [show (rmatch (seqList (litAtoms (pathClean pat))) (pathClean path) = true) ↔
      (pathClean path = pathClean pat) from (rmatch_iff _ _).trans (litSeq_lang _ _)]
    by_cases hEP : pathExt (pathClean pat) = []
    · by_cases hES : pathExt (pathClean path) = []
      · rw [normalizeGlob_of_ext_nil hEP, normalizeGlob_of_ext_nil hES]
      · constructor
        · intro hq
          rw [hq] at hES
          exact absurd hEP hES
        · intro hn
          have h1 := normalizeGlob_ext hES
          rw [hn, normalizeGlob_of_ext_nil hEP, hEP] at h1
          have h2 : pathExt (pathClean path) = [] := by
            have := congrArg List.length h1
            simp [asciiToLower] at this
            exact List.length_eq_zero.mp this.symm
          exact absurd h2 hES
    · by_cases hES : pathExt (pathClean path) = []
      · constructor
        · intro hq
          rw [hq] at hES
          exact absurd hES hEP
        · intro hn
          have h1 := normalizeGlob_ext hEP
          rw [normalizeGlob_of_ext_nil hES] at hn
          rw [← hn, hES] at h1
          have h2 : pathExt (pathClean pat) = [] := by
            have := congrArg List.length h1
            simp [asciiToLower] at this
            exact List.length_eq_zero.mp this.symm
          exact absurd h2 hEP
      · exact absurd ⟨hEP, hES⟩ hcond

theorem literal_pattern_matches_iff_witness :
    ('*' ∉ (("a.GO").data) ∧ '?' ∉ (("a.GO").data)) ∧
    ((matchGlobPattern (("a.GO").data) (("a.go").data) = .ok true) ↔
      normalizeGlob (("a.go").data) = normalizeGlob (("a.GO").data)) :=
  ⟨⟨by decide, by decide⟩,
    literal_pattern_matches_iff (("a.GO").data) (("a.go").data) (by decide) (by decide)⟩

end CorpusPacker
